import Mathlib

/-!
# alros::Bridge: dispatch scheduler, registry and recording session

A shallow embedding of `src/alrosbridge.cpp` and `src/publishers/publisher_base.hpp`.

* The bridge is a record of its member variables; every member function is a
  function on that record.  The two mutexes only make the member functions
  atomic with respect to each other, so each function is one state transition.
* `std::map<std::string, T>` is a list of (key, value) pairs walked in key
  order, every entry holding its own sink; `std::priority_queue<ScheduledConverter>`
  is a list whose head is the top of the heap.
* `ros::Time` is a number of nanoseconds and `ros::Duration` a signed number of
  nanoseconds.  `ros::Duration( 1.0f / conv.frequency() )` is computed as the code
  computes it: the quotient rounded to single precision, then split into seconds
  and rounded nanoseconds; the sum `schedule + duration` throws when it leaves the
  range of `ros::Time`, and a pass records that in `LoopResult.thrown`.
* One pass through the body of the `while` loop of `Bridge::rosLoop` is
  `Bridge.rosLoopBody`; it reports the contents of the static `actions` vector
  and every invocation of `Converter::callAll` next to the new bridge state.
-/

namespace alros

/-- The action tags pushed by `Bridge::rosLoop` (`message_actions::PUBLISH`, `message_actions::RECORD`). -/
inductive MessageAction where
  | PUBLISH
  | RECORD
deriving DecidableEq

/-- The robot kinds; `registerDefaultConverter` only tests for `PEPPER`. -/
inductive Robot where
  | PEPPER
  | NAO
deriving DecidableEq

/-- The type `ros::Time`: nanoseconds since the epoch (a valid value is below
`2 ^ 32` seconds). -/
abbrev Time := ℕ

/-- The type `ros::Duration`: a signed number of nanoseconds. -/
abbrev Duration := ℤ

/-- The part of `converter::Converter` the bridge reads: `name()` and `frequency()`,
the latter as the value of the `float` it returns. -/
structure Converter where
  name : String
  frequency : ℚ
deriving DecidableEq

/-- The class `BasePublisher` of `publisher_base.hpp`; `numSubscribers` is what
`pub_.getNumSubscribers()` currently reports. -/
structure Publisher where
  name_ : String
  topic_ : String
  is_initialized_ : Bool
  numSubscribers : Nat
deriving DecidableEq

/-- The method `BasePublisher::topic`. -/
def Publisher.topic (p : Publisher) : String := p.topic_

/-- The method `BasePublisher::isInitialized`. -/
def Publisher.isInitialized (p : Publisher) : Bool := p.is_initialized_

/-- The method `BasePublisher::isSubscribed`. -/
def Publisher.isSubscribed (p : Publisher) : Bool :=
  if p.is_initialized_ == false then false
  else decide (p.numSubscribers > 0)

/-- The method `Publisher::reset( nh )`: the publisher is advertised on the node handle. -/
def Publisher.reset (p : Publisher) : Publisher := { p with is_initialized_ := true }

/-- Modelled from the spec: the Sink-Record capability (`recorder::Recorder`, whose
declaration is not among the sources): an inclusion flag written by
`subscribe(bool)` (`setIncluded`) and read by `isSubscribed()` (`isIncluded`). -/
structure Recorder where
  topic_ : String
  is_subscribed_ : Bool
deriving DecidableEq

/-- The method `Recorder::subscribe( state )`. -/
def Recorder.subscribe (r : Recorder) (state : Bool) : Recorder :=
  { r with is_subscribed_ := state }

/-- The method `Recorder::isSubscribed`. -/
def Recorder.isSubscribed (r : Recorder) : Bool := r.is_subscribed_

/-- The part of `subscriber::Subscriber` the bridge uses: a name and a topic, which
is what `std::find` compares. -/
structure Subscriber where
  name : String
  topic : String
deriving DecidableEq

/-- The pair pushed on `conv_queue_`: a due time and an index into `converters_`. -/
structure ScheduledConverter where
  schedule_ : Time
  conv_index_ : Nat
deriving DecidableEq

/-! ## `ros::Duration( 1.0f / frequency )` and `ros::Time + ros::Duration` -/

/-- The binary logarithm of a natural number, rounded down (`fuel` bounds the steps). -/
def log2Aux : Nat → Nat → Nat
  | 0, _ => 0
  | fuel + 1, n => if 2 ≤ n then log2Aux fuel (n / 2) + 1 else 0

/-- The binary logarithm of a natural number, rounded down. -/
def log2 (n : Nat) : Nat := log2Aux n n

/-- The binary exponent of the positive fraction `a / b`: the `e` with
`2 ^ e ≤ a / b < 2 ^ (e + 1)`. -/
def floorLog2 (a b : Nat) : Int :=
  let e0 : Int := (log2 a : Int) - (log2 b : Int)
  if b * 2 ^ log2 a ≤ a * 2 ^ log2 b then e0 else e0 - 1

/-- The fraction `n / d` rounded to the nearest natural number, ties to even. -/
def roundHalfEven (n d : Nat) : Nat :=
  if 2 * (n % d) < d then n / d
  else if d < 2 * (n % d) then n / d + 1
  else if (n / d) % 2 = 0 then n / d else n / d + 1

/-- IEEE 754 rounding to nearest, ties to even, of the non-negative fraction `a / b`
in a binary format with `prec` significant bits and least exponent `emin`; the
result is the fraction (numerator, denominator). -/
def roundBinary (prec : Nat) (emin : Int) (a b : Nat) : Nat × Nat :=
  if a = 0 then (0, 1)
  else
    let u : Int := max (floorLog2 a b) emin - ((prec : Int) - 1)
    if 0 ≤ u then (roundHalfEven a (b * 2 ^ u.toNat) * 2 ^ u.toNat, 1)
    else (roundHalfEven (a * 2 ^ (-u).toNat) b, 2 ^ (-u).toNat)

/-- The value `ros::Duration( 1.0f / frequency )` in nanoseconds.  The quotient is
rounded to single precision (24 bits, least exponent -126) and widened to `double`;
`Duration::fromSec` takes `sec = floor(d)` and
`nsec = boost::math::round( (d - sec) * 1e9 )`, both products of `double`
arithmetic (53 bits).  The result is `none` when the quotient is infinite or its
seconds do not fit 32 bits, where the constructor throws. -/
def rosDuration (frequency : ℚ) : Option Duration :=
  if frequency.num = 0 then none
  else
    let q := roundBinary 24 (-126) frequency.den frequency.num.natAbs
    if 2 ^ 128 * q.2 ≤ q.1 then none
    else
      let sec : Int :=
        if frequency.num < 0 then -(((q.1 + q.2 - 1) / q.2 : Nat) : Int)
        else ((q.1 / q.2 : Nat) : Int)
      if sec < -(2 ^ 31) ∨ 2 ^ 31 ≤ sec then none
      else
        let r := q.1 % q.2
        let fracNum := if frequency.num < 0 then (if r = 0 then 0 else q.2 - r) else r
        let frac := roundBinary 53 (-1022) fracNum q.2
        let p := roundBinary 53 (-1022) (frac.1 * 10 ^ 9) frac.2
        let nsec := (2 * p.1 + p.2) / (2 * p.2)
        some (sec * 10 ^ 9 + (nsec : Int))

/-- The operator `ros::Time + ros::Duration`: `none` when the sum is negative or not
below `2 ^ 32` seconds, where the operator throws. -/
def addDuration (t : Time) (d : Duration) : Option Time :=
  if 0 ≤ (t : Int) + d ∧ (t : Int) + d < 2 ^ 32 * 10 ^ 9 then some ((t : Int) + d).toNat
  else none

/-- The expression `schedule + ros::Duration( 1.0f / frequency )`, `none` when it throws. -/
def nextSchedule (schedule : Time) (frequency : ℚ) : Option Time :=
  match rosDuration frequency with
  | some d => addDuration schedule d
  | none => none

/-! ## `std::map<std::string, T>` -/

/-- The ordering `operator<` of `std::string`: lexicographic on the characters. -/
def keyLt (a b : String) : Prop := a.data < b.data

instance keyLt.instDecidable (a b : String) : Decidable (keyLt a b) :=
  inferInstanceAs (Decidable (a.data < b.data))

/-- The entries of a `std::map<std::string, T>` in iteration (key) order. -/
abbrev StdMap (α : Type) := List (String × α)

namespace StdMap

variable {α : Type}

/-- The member `std::map::find`: the value stored under `k`, `none` standing for `end()`. -/
def find : StdMap α → String → Option α
  | [], _ => none
  | (k', v) :: t, k => if k' = k then some v else find t k

/-- The member `std::map::insert( value_type(k, v) )`: walks the keys in order and
adds the pair at its place; an existing entry with key `k` is left as it is. -/
def insert : StdMap α → String → α → StdMap α
  | [], k, v => [(k, v)]
  | (k', v') :: t, k, v =>
    if keyLt k k' then (k, v) :: (k', v') :: t
    else if k = k' then (k', v') :: t
    else (k', v') :: insert t k v

/-- Writing through an iterator obtained from `find`: `it->second = f (it->second)`
when `it != end()`, nothing otherwise. -/
def modify : StdMap α → String → (α → α) → StdMap α
  | [], _, _ => []
  | (k', v) :: t, k, f => if k' = k then (k', f v) :: t else (k', v) :: modify t k f

/-- The keys of the map in iteration order. -/
def keys (m : StdMap α) : List String := m.map Prod.fst

/-- The representation invariant of `std::map`: keys strictly increasing. -/
def WF (m : StdMap α) : Prop := m.Pairwise (fun a b => keyLt a.1 b.1)

end StdMap

/-! ## `std::priority_queue<ScheduledConverter>` -/

/-- The timer queue; the head of the list is `top()`. -/
abbrev ConvQueue := List ScheduledConverter

namespace ConvQueue

/-- The member `top()`, `none` on an empty queue. -/
def top (q : ConvQueue) : Option ScheduledConverter := q.head?

/-- The member `pop()`. -/
def pop (q : ConvQueue) : ConvQueue := q.tail

/-- Modelled from the spec: the ordering of `ScheduledConverter` (declared in
`alrosbridge.hpp`, which is not among the sources): the earlier due time sorts
first; entries with equal due times keep their insertion order. -/
def push (e : ScheduledConverter) : ConvQueue → ConvQueue
  | [] => [e]
  | h :: t => if e.schedule_ < h.schedule_ then e :: h :: t else h :: push e t

end ConvQueue

/-! ## The bridge -/

/-- The member variables of `alros::Bridge`. `nhPtr_` holds the master URI the
node handle was created for (`none` is the null handle) and `publisherThread_`
tells whether the worker thread has been created. -/
structure Bridge where
  publish_enabled_ : Bool
  publish_cancelled_ : Bool
  record_enabled_ : Bool
  record_cancelled_ : Bool
  converters_ : List Converter
  pub_map_ : StdMap Publisher
  rec_map_ : StdMap Recorder
  subscribers_ : List Subscriber
  conv_queue_ : ConvQueue
  nhPtr_ : Option String
  publisherThread_ : Bool

/-- The member `std::vector::clear`. -/
def clear {α : Type} (_v : List α) : List α := []

/-- The result of one pass through the body of the `while` loop of `rosLoop`: the
bridge afterwards, the content of the static `actions` vector, the invocations of
`callAll` as (converter index, argument), the index of the converter that was due
(`none` on an empty queue), the time slept, and whether the pass ended in the
exception thrown by `schedule + ros::Duration(...)`. -/
structure LoopResult where
  bridge : Bridge
  actions : List MessageAction
  callAll : List (Nat × List MessageAction)
  conv_index : Option Nat
  slept : Duration
  thrown : Bool

namespace Bridge

/-- The constructor `Bridge::Bridge`. -/
def new : Bridge :=
  { publish_enabled_ := false
    publish_cancelled_ := false
    record_enabled_ := false
    record_cancelled_ := false
    converters_ := []
    pub_map_ := []
    rec_map_ := []
    subscribers_ := []
    conv_queue_ := []
    nhPtr_ := none
    publisherThread_ := false }

/-- The method `Bridge::startPublishing`. -/
def startPublishing (b : Bridge) : Bridge := { b with publish_enabled_ := true }

/-- The method `Bridge::stopPublishing`. -/
def stopPublishing (b : Bridge) : Bridge := { b with publish_enabled_ := false }

/-- The method `Bridge::stopService` (the join of the worker thread is not modelled). -/
def stopService (b : Bridge) : Bridge :=
  let b := { b with publish_cancelled_ := true }
  let b := b.stopPublishing
  { b with converters_ := [], subscribers_ := [] }

/-- One pass through the body of the `while` loop of `Bridge::rosLoop`.
`actions` is the content the static vector has on entry, `now` the reading of
`ros::Time::now()`.  The result is `none` when `converters_[conv_index]` reads
outside the vector (undefined behaviour). -/
def rosLoopBody (b : Bridge) (actions : List MessageAction) (now : Time) : Option LoopResult :=
  -- clear the callback triggers
  let actions := clear actions
  match b.conv_queue_.top with
  | some top =>
    let conv_index := top.conv_index_
    match b.converters_[conv_index]? with
    | none => none
    | some conv =>
      let schedule := top.schedule_
      let d : Duration := (schedule : Int) - (now : Int)
      let slept := if d > 0 then d else 0
      -- check the publishing condition
      let pub_it := b.pub_map_.find conv.name
      let actions :=
        if b.publish_enabled_ && (match pub_it with
                                  | some pub => pub.isSubscribed
                                  | none => false)
        then actions ++ [MessageAction.PUBLISH] else actions
      -- check the recording condition
      let rec_it := b.rec_map_.find conv.name
      let actions :=
        if b.record_enabled_ && (match rec_it with
                                 | some r => r.isSubscribed
                                 | none => false)
        then actions ++ [MessageAction.RECORD] else actions
      let calls := if actions.length > 0 then [(conv_index, actions)] else []
      -- schedule for a future time or not
      let queue := b.conv_queue_.pop
      if conv.frequency ≠ 0 then
        match nextSchedule schedule conv.frequency with
        | some next =>
          some { bridge := { b with conv_queue_ := queue.push ⟨next, conv_index⟩ }
                 actions := actions
                 callAll := calls
                 conv_index := some conv_index
                 slept := slept
                 thrown := false }
        | none =>
          -- the exception leaves the loop after the pop
          some { bridge := { b with conv_queue_ := queue }
                 actions := actions
                 callAll := calls
                 conv_index := some conv_index
                 slept := slept
                 thrown := true }
      else
        some { bridge := { b with conv_queue_ := queue }
               actions := actions
               callAll := calls
               conv_index := some conv_index
               slept := slept
               thrown := false }
  | none =>
    -- sleep one second
    some { bridge := b, actions := actions, callAll := [], conv_index := none,
           slept := 10 ^ 9, thrown := false }

/-- The method `Bridge::rosLoop`, run for at most one pass per clock reading in
`clock`: the bridge afterwards and the results of the passes made.  A pass that
throws is the last one, since the exception leaves the loop.  The result is `none`
when a pass reads outside `converters_`. -/
def rosLoop : Bridge → List MessageAction → List Time → Option (Bridge × List LoopResult)
  | b, _, [] => some (b, [])
  | b, actions, now :: clock =>
    if !b.publish_cancelled_ && !b.record_cancelled_ then
      match b.rosLoopBody actions now with
      | none => none
      | some r =>
        if r.thrown then some (r.bridge, [r])
        else
          match rosLoop r.bridge r.actions clock with
          | none => none
          | some (b', trace) => some (b', r :: trace)
    else some (b, [])

/-- The method `Bridge::registerConverter( conv )`. -/
def registerConverter (b : Bridge) (conv : Converter) : Bridge :=
  { b with converters_ := b.converters_ ++ [conv] }

/-- The method `Bridge::registerConverter( conv, pub, rec )`. -/
def registerConverterPubRec (b : Bridge) (conv : Converter) (pub : Publisher) (r : Recorder) :
    Bridge :=
  let b := b.registerConverter conv
  let b := { b with pub_map_ := b.pub_map_.insert conv.name pub }
  { b with rec_map_ := b.rec_map_.insert conv.name r }

/-- The method `Bridge::registerPublisher( conv, pub )`. -/
def registerPublisher (b : Bridge) (conv : Converter) (pub : Publisher) : Bridge :=
  let b := b.registerConverter conv
  { b with pub_map_ := b.pub_map_.insert conv.name pub }

/-- The method `Bridge::registerRecorder( conv, rec )`. -/
def registerRecorder (b : Bridge) (conv : Converter) (r : Recorder) : Bridge :=
  let b := b.registerConverter conv
  { b with rec_map_ := b.rec_map_.insert conv.name r }

/-- A default publisher after `reset( *nhPtr_ )`, with no listener yet. -/
def defaultPublisher (topic : String) : Publisher :=
  Publisher.reset { name_ := topic, topic_ := topic, is_initialized_ := false, numSubscribers := 0 }

/-- A default recorder after `reset( recorder_ )`. -/
def defaultRecorder (topic : String) : Recorder :=
  { topic_ := topic, is_subscribed_ := false }

/-- The method `Bridge::registerDefaultConverter`; `robot_type` is what `sc->robot()` returns. -/
def registerDefaultConverter (b : Bridge) (robot_type : Robot) : Bridge :=
  -- String Publisher
  let b := b.registerConverterPubRec ⟨"string", 10⟩ (defaultPublisher "string") (defaultRecorder "string")
  -- IMU TORSO
  let b := b.registerConverterPubRec ⟨"imu_torso", 15⟩ (defaultPublisher "imu_torso")
    (defaultRecorder "imu_torso")
  -- IMU BASE
  let b := if robot_type = Robot.PEPPER
    then b.registerConverterPubRec ⟨"imu_base", 15⟩ (defaultPublisher "imu_base")
      (defaultRecorder "imu_base")
    else b
  -- Int Publisher
  let b := b.registerConverterPubRec ⟨"int", 15⟩ (defaultPublisher "int") (defaultRecorder "int")
  -- Front Camera
  let b := b.registerConverterPubRec ⟨"front_camera", 10⟩ (defaultPublisher "camera/front/image_raw")
    (defaultRecorder "camera/front/image_raw")
  -- Depth Camera
  let b := if robot_type = Robot.PEPPER
    then b.registerConverterPubRec ⟨"depth_camera", 10⟩ (defaultPublisher "camera/depth/image_raw")
      (defaultRecorder "camera/depth/image_raw")
    else b
  -- Joint States
  let b := b.registerConverterPubRec ⟨"joint_states", 15⟩ (defaultPublisher "/joint_states")
    (defaultRecorder "/joint_states")
  -- Laser
  let b := if robot_type = Robot.PEPPER
    then b.registerConverterPubRec ⟨"laser", 10⟩ (defaultPublisher "laser") (defaultRecorder "laser")
    else b
  -- Sonar
  b.registerConverterPubRec ⟨"sonar", 10⟩ (defaultPublisher "sonar") (defaultRecorder "sonar")

/-- The method `Bridge::registerSubscriber`. -/
def registerSubscriber (b : Bridge) (sub : Subscriber) : Bridge :=
  if sub ∈ b.subscribers_ then b
  else { b with subscribers_ := b.subscribers_ ++ [sub] }

/-- The method `Bridge::registerDefaultSubscriber`. -/
def registerDefaultSubscriber (b : Bridge) : Bridge :=
  if b.subscribers_ ≠ [] then b
  else
    let b := b.registerSubscriber ⟨"teleop", "/cmd_vel"⟩
    b.registerSubscriber ⟨"moveto", "/move_base_simple/goal"⟩

/-- The method `Bridge::getAvailableConverters`. -/
def getAvailableConverters (b : Bridge) : List String :=
  b.converters_.foldl (fun conv_list conv => conv_list ++ [conv.name]) []

/-- The first loop of `Bridge::init`: one push per converter, `clock i` being the
reading of `ros::Time::now()` in the pass for the converter with index `i`. -/
def initQueue (clock : Nat → Time) : List Converter → Nat → ConvQueue → ConvQueue
  | [], _, q => q
  | _ :: rest, conv_index, q =>
    initQueue clock rest (conv_index + 1) (q.push ⟨clock conv_index, conv_index⟩)

/-- The method `Bridge::init`: the queue is rebuilt from scratch (the `reset()` of
the converters and of the subscribers acts outside the bridge state). -/
def init (b : Bridge) (clock : Nat → Time) : Bridge :=
  { b with conv_queue_ := initQueue clock b.converters_ 0 [] }

/-- The method `Bridge::setMasterURINet`; `robot_type` and `clock` are the robot kind
reported by the session and the clock readings taken by `init`. -/
def setMasterURINet (b : Bridge) (uri : String) (robot_type : Robot) (clock : Nat → Time) : Bridge :=
  -- Stopping publishing
  let b := b.stopPublishing
  -- Reinitializing ROS
  let b := { b with nhPtr_ := none }
  let b := { b with nhPtr_ := some uri }
  -- Create the publishing thread if needed
  let b := if b.publisherThread_ = false then { b with publisherThread_ := true } else b
  -- register publishers, that will not start them
  let b := b.registerDefaultConverter robot_type
  let b := b.registerDefaultSubscriber
  -- initialize the publishers and subscribers with nodehandle
  let b := b.init clock
  -- Start publishing again
  b.startPublishing

/-- The method `Bridge::getSubscribedPublishers`. -/
def getSubscribedPublishers (b : Bridge) : List String :=
  b.pub_map_.foldl
    (fun publisher entry =>
      if entry.2.isSubscribed then publisher ++ [entry.2.topic] else publisher)
    []

/-- The loop body shared by `startRecord` and `stopRecord`:
`it = rec_map_.find(name); if ( it != rec_map_.end() ) it->second.subscribe(state)`. -/
def subscribeFound (state : Bool) (m : StdMap Recorder) (name : String) : StdMap Recorder :=
  match m.find name with
  | some _ => m.modify name (fun r => r.subscribe state)
  | none => m

/-- The method `Bridge::startRecord`. -/
def startRecord (b : Bridge) : Bridge :=
  let rec_map := b.converters_.foldl (fun m conv => subscribeFound true m conv.name) b.rec_map_
  { b with rec_map_ := rec_map, record_enabled_ := true }

/-- The method `Bridge::startRecordTopics`; a name that is not found only prints a message. -/
def startRecordTopics (b : Bridge) (names : List String) : Bridge :=
  let rec_map := names.foldl (fun m name => subscribeFound true m name) b.rec_map_
  { b with rec_map_ := rec_map, record_enabled_ := true }

/-- The method `Bridge::stopRecord` (the returned location comes from the global recorder). -/
def stopRecord (b : Bridge) : Bridge :=
  let b := { b with record_enabled_ := false }
  let rec_map := b.converters_.foldl (fun m conv => subscribeFound false m conv.name) b.rec_map_
  { b with rec_map_ := rec_map }

end Bridge

/-! ## Invariants of the timer queue -/

/-- The queue a pass leaves when `top` was due, `rest` is the queue without it and
`frequency` is the frequency of the due converter: the entry is pushed again
unless the frequency is 0 or `schedule + ros::Duration(...)` throws. -/
def requeue (rest : ConvQueue) (top : ScheduledConverter) (frequency : ℚ) : ConvQueue :=
  if frequency ≠ 0 then
    match nextSchedule top.schedule_ frequency with
    | some next => rest.push ⟨next, top.conv_index_⟩
    | none => rest
  else rest

/-- Tells whether the pass for an entry due at `schedule` throws. -/
def requeueThrows (schedule : Time) (frequency : ℚ) : Bool :=
  decide (frequency ≠ 0) && (nextSchedule schedule frequency).isNone

/-- Every queued index lies inside `converters_`. -/
def Bridge.QueueValid (b : Bridge) : Prop :=
  ∀ e ∈ b.conv_queue_, e.conv_index_ < b.converters_.length

/-- No converter index is queued twice. -/
def Bridge.QueueNodup (b : Bridge) : Prop :=
  (b.conv_queue_.map ScheduledConverter.conv_index_).Nodup

/-- The number of passes in a trace of `rosLoop` in which converter `i` was the due one. -/
def dispatchCount (trace : List LoopResult) (i : Nat) : Nat :=
  (trace.filterMap LoopResult.conv_index).count i

/-! ## The default set of converter names -/

/-- The names of the converters that `registerDefaultConverter` creates for a robot
kind, in registration order. -/
def defaultConverterNames : Robot → List String
  | Robot.PEPPER => ["string", "imu_torso", "imu_base", "int", "front_camera", "depth_camera",
      "joint_states", "laser", "sonar"]
  | Robot.NAO => ["string", "imu_torso", "int", "front_camera", "joint_states", "sonar"]

/-! ## Runs of the worker interleaved with control calls -/

/-- What happens to the bridge while the worker thread runs: a pass of the
`rosLoop` body at clock reading `now`, or a call of `startPublishing` or
`stopPublishing` between two passes (the calls take `mutex_reinit_`, which the
pass holds). -/
inductive Event where
  | pass (now : Time)
  | startPublishing
  | stopPublishing

/-- Tells the passes from the toggles. -/
def Event.isPass : Event → Bool
  | Event.pass _ => true
  | _ => false

/-- The bridge after a sequence of events; a pass is made only while the loop
condition `!publish_cancelled_ && !record_cancelled_` holds.  An exception thrown
in a pass leaves `rosLoop`, the function of the worker thread, which ends the
process, so the run ends with that pass.  The result is `none` when a pass reads
outside `converters_`. -/
def runEvents : Bridge → List MessageAction → List Event → Option Bridge
  | b, _, [] => some b
  | b, actions, Event.pass now :: rest =>
    if !b.publish_cancelled_ && !b.record_cancelled_ then
      match b.rosLoopBody actions now with
      | none => none
      | some r => if r.thrown then some r.bridge else runEvents r.bridge r.actions rest
    else runEvents b actions rest
  | b, actions, Event.startPublishing :: rest => runEvents b.startPublishing actions rest
  | b, actions, Event.stopPublishing :: rest => runEvents b.stopPublishing actions rest

/-- Two bridge states that differ at most in `publish_enabled_`. -/
def Bridge.EqUpToPublish (b b2 : Bridge) : Prop :=
  b2 = { b with publish_enabled_ := b2.publish_enabled_ }

/-! ## Reachable bridge states -/

/-- Every key of `rec_map_` is the name of a converter in `converters_`. -/
def Bridge.RecKeysRegistered (b : Bridge) : Prop :=
  ∀ e ∈ b.rec_map_, ∃ conv ∈ b.converters_, conv.name = e.1

/-- The bridge states reachable from the constructor through the registration
functions, reconfiguration, `init`, the publish toggles, the record calls and
passes of the worker loop (`stopService`, which ends the service, is not among
them). -/
inductive Bridge.Reachable : Bridge → Prop where
  | new : Bridge.Reachable Bridge.new
  | registerConverter (b : Bridge) (conv : Converter) :
      Bridge.Reachable b → Bridge.Reachable (b.registerConverter conv)
  | registerConverterPubRec (b : Bridge) (conv : Converter) (pub : Publisher) (r : Recorder) :
      Bridge.Reachable b → Bridge.Reachable (b.registerConverterPubRec conv pub r)
  | registerPublisher (b : Bridge) (conv : Converter) (pub : Publisher) :
      Bridge.Reachable b → Bridge.Reachable (b.registerPublisher conv pub)
  | registerRecorder (b : Bridge) (conv : Converter) (r : Recorder) :
      Bridge.Reachable b → Bridge.Reachable (b.registerRecorder conv r)
  | registerSubscriber (b : Bridge) (sub : Subscriber) :
      Bridge.Reachable b → Bridge.Reachable (b.registerSubscriber sub)
  | setMasterURINet (b : Bridge) (uri : String) (robot_type : Robot) (clock : Nat → Time) :
      Bridge.Reachable b → Bridge.Reachable (b.setMasterURINet uri robot_type clock)
  | init (b : Bridge) (clock : Nat → Time) :
      Bridge.Reachable b → Bridge.Reachable (b.init clock)
  | startPublishing (b : Bridge) : Bridge.Reachable b → Bridge.Reachable b.startPublishing
  | stopPublishing (b : Bridge) : Bridge.Reachable b → Bridge.Reachable b.stopPublishing
  | startRecord (b : Bridge) : Bridge.Reachable b → Bridge.Reachable b.startRecord
  | startRecordTopics (b : Bridge) (names : List String) :
      Bridge.Reachable b → Bridge.Reachable (b.startRecordTopics names)
  | stopRecord (b : Bridge) : Bridge.Reachable b → Bridge.Reachable b.stopRecord
  | pass (b : Bridge) (actions : List MessageAction) (now : Time) (r : LoopResult) :
      Bridge.Reachable b → b.rosLoopBody actions now = some r → Bridge.Reachable r.bridge

/-- The invariant of the reachable states: both sink maps are well-formed, every
recorder is stored under the name of a registered converter, and every queued
index lies inside `converters_`. -/
structure Bridge.Inv (b : Bridge) : Prop where
  pub_wf : b.pub_map_.WF
  rec_wf : b.rec_map_.WF
  rec_keys : b.RecKeysRegistered
  queue_valid : b.QueueValid

/-- The bridge states reachable from `b0` by passes of the worker loop, the
registration functions, the publish toggles and the record calls. -/
inductive Bridge.ReachableFrom (b0 : Bridge) : Bridge → Prop where
  | start : Bridge.ReachableFrom b0 b0
  | pass (b : Bridge) (actions : List MessageAction) (now : Time) (r : LoopResult) :
      Bridge.ReachableFrom b0 b → b.rosLoopBody actions now = some r →
      Bridge.ReachableFrom b0 r.bridge
  | registerConverter (b : Bridge) (conv : Converter) :
      Bridge.ReachableFrom b0 b → Bridge.ReachableFrom b0 (b.registerConverter conv)
  | registerConverterPubRec (b : Bridge) (conv : Converter) (pub : Publisher) (r : Recorder) :
      Bridge.ReachableFrom b0 b →
      Bridge.ReachableFrom b0 (b.registerConverterPubRec conv pub r)
  | registerPublisher (b : Bridge) (conv : Converter) (pub : Publisher) :
      Bridge.ReachableFrom b0 b → Bridge.ReachableFrom b0 (b.registerPublisher conv pub)
  | registerRecorder (b : Bridge) (conv : Converter) (r : Recorder) :
      Bridge.ReachableFrom b0 b → Bridge.ReachableFrom b0 (b.registerRecorder conv r)
  | startPublishing (b : Bridge) :
      Bridge.ReachableFrom b0 b → Bridge.ReachableFrom b0 b.startPublishing
  | stopPublishing (b : Bridge) :
      Bridge.ReachableFrom b0 b → Bridge.ReachableFrom b0 b.stopPublishing
  | startRecord (b : Bridge) :
      Bridge.ReachableFrom b0 b → Bridge.ReachableFrom b0 b.startRecord
  | startRecordTopics (b : Bridge) (names : List String) :
      Bridge.ReachableFrom b0 b → Bridge.ReachableFrom b0 (b.startRecordTopics names)
  | stopRecord (b : Bridge) :
      Bridge.ReachableFrom b0 b → Bridge.ReachableFrom b0 b.stopRecord

/-! ## Example states used to instantiate the theorems -/

/-- A bridge built by the registration functions: the converter `"a"` with both
sinks and the converter `"b"` with a recorder only. -/
def registeredBridge : Bridge :=
  (Bridge.new.registerConverterPubRec ⟨"a", 2⟩ (Bridge.defaultPublisher "topic_a")
    (Bridge.defaultRecorder "topic_a")).registerRecorder ⟨"b", 1⟩ (Bridge.defaultRecorder "topic_b")

/-- A bridge with four publishers and publishing switched off: `"a"` and `"c"` have
listeners, `"b"` is not initialized, `"d"` has no listener. -/
def listenerBridge : Bridge :=
  { Bridge.new with
    pub_map_ := [("a", ⟨"a", "topic_a", true, 1⟩), ("b", ⟨"b", "topic_b", false, 3⟩),
                 ("c", ⟨"c", "topic_c", true, 2⟩), ("d", ⟨"d", "topic_d", true, 0⟩)] }

/-- A bridge with the converters `"a"` and `"b"`, a recorder for each, no recording
session and nothing queued. -/
def idleBridge : Bridge :=
  { Bridge.new with
    converters_ := [⟨"a", 2⟩, ⟨"b", 1⟩]
    rec_map_ := [("a", ⟨"topic_a", false⟩), ("b", ⟨"topic_b", false⟩)] }


/-- A bridge with one converter `"a"` at 10 Hz that has a publisher with one
listener and a recorder that is included, both gates open, due at time 0. -/
def exampleBridge : Bridge :=
  { publish_enabled_ := true
    publish_cancelled_ := false
    record_enabled_ := true
    record_cancelled_ := false
    converters_ := [⟨"a", 10⟩]
    pub_map_ := [("a", ⟨"a", "topic_a", true, 1⟩)]
    rec_map_ := [("a", ⟨"topic_a", true⟩)]
    subscribers_ := []
    conv_queue_ := [⟨0, 0⟩]
    nhPtr_ := some "uri"
    publisherThread_ := true }

/-- A bridge whose only converter has no sink at all and the frequency `-1`, due
at 10 seconds. -/
def backwardBridge : Bridge :=
  { Bridge.new with
    publish_enabled_ := true
    record_enabled_ := true
    converters_ := [⟨"x", -1⟩]
    conv_queue_ := [⟨10000000000, 0⟩] }

/-! ## The action list of one scheduler iteration -/

open MessageAction

theorem Publisher.isSubscribed_of_not_initialized (p : Publisher)
    (h : p.is_initialized_ = false) : p.isSubscribed = false := by
  simp [Publisher.isSubscribed, h]

/-- The iteration on a non-empty queue with a valid index, written out. -/
theorem Bridge.rosLoopBody_eq (b : Bridge) (prev : List MessageAction) (now : Time)
    (top : ScheduledConverter) (conv : Converter)
    (htop : b.conv_queue_.top = some top)
    (hconv : b.converters_[top.conv_index_]? = some conv) :
    b.rosLoopBody prev now = some
      { bridge := { b with conv_queue_ := requeue b.conv_queue_.pop top conv.frequency }
        actions :=
          (if b.publish_enabled_ && (match b.pub_map_.find conv.name with
                                      | some pub => pub.isSubscribed
                                      | none => false)
            then [PUBLISH] else []) ++
          (if b.record_enabled_ && (match b.rec_map_.find conv.name with
                                     | some r => r.isSubscribed
                                     | none => false)
            then [RECORD] else [])
        callAll :=
          if (b.publish_enabled_ && (match b.pub_map_.find conv.name with
                                      | some pub => pub.isSubscribed
                                      | none => false)) ||
             (b.record_enabled_ && (match b.rec_map_.find conv.name with
                                     | some r => r.isSubscribed
                                     | none => false))
          then [(top.conv_index_,
            (if b.publish_enabled_ && (match b.pub_map_.find conv.name with
                                      | some pub => pub.isSubscribed
                                      | none => false)
            then [PUBLISH] else []) ++
            (if b.record_enabled_ && (match b.rec_map_.find conv.name with
                                     | some r => r.isSubscribed
                                     | none => false)
            then [RECORD] else []))]
          else []
        conv_index := some top.conv_index_
        slept := if (top.schedule_ : Int) - (now : Int) > 0
          then (top.schedule_ : Int) - (now : Int) else 0
        thrown := requeueThrows top.schedule_ conv.frequency } := by
  unfold Bridge.rosLoopBody
  simp only [htop, hconv, clear, requeue, requeueThrows]
  generalize (b.publish_enabled_ && (match b.pub_map_.find conv.name with
                                      | some pub => pub.isSubscribed
                                      | none => false)) = P
  generalize (b.record_enabled_ && (match b.rec_map_.find conv.name with
                                     | some r => r.isSubscribed
                                     | none => false)) = R
  by_cases hf : conv.frequency = 0
  · cases P <;> cases R <;> simp [hf]
  · cases hn : nextSchedule top.schedule_ conv.frequency <;> cases P <;> cases R <;>
      simp [hf]

/-- C1: on a non-empty queue whose top index is inside `converters_`, one pass of the
`rosLoop` body returns, and its action list is the part of `[PUBLISH, RECORD]` in
which `PUBLISH` occurs iff `publish_enabled_` holds, `pub_map_` has an entry for the
due converter's name and that publisher reports `isSubscribed` (never the case for a
publisher that is not initialized), and `RECORD` occurs iff `record_enabled_` holds,
`rec_map_` has an entry for the name and that recorder reports `isSubscribed`.
Nothing else occurs, and the former content of the static vector has no influence. -/
theorem rosLoopBody_action_list (b : Bridge) (prev : List MessageAction) (now : Time)
    (top : ScheduledConverter) (conv : Converter)
    (htop : b.conv_queue_.top = some top)
    (hconv : b.converters_[top.conv_index_]? = some conv) :
    ∃ r, b.rosLoopBody prev now = some r ∧
      (PUBLISH ∈ r.actions ↔
        (b.publish_enabled_ = true ∧
          ∃ pub, b.pub_map_.find conv.name = some pub ∧ pub.isSubscribed = true)) ∧
      (RECORD ∈ r.actions ↔
        (b.record_enabled_ = true ∧
          ∃ rc, b.rec_map_.find conv.name = some rc ∧ rc.isSubscribed = true)) ∧
      r.actions = [PUBLISH, RECORD].filter (fun a => decide (a ∈ r.actions)) ∧
      (∀ pub, b.pub_map_.find conv.name = some pub → pub.is_initialized_ = false →
        PUBLISH ∉ r.actions) ∧
      (∀ prev2, (b.rosLoopBody prev2 now).map LoopResult.actions = some r.actions) := by
  refine ⟨_, Bridge.rosLoopBody_eq b prev now top conv htop hconv, ?_, ?_, ?_, ?_, ?_⟩
  · cases b.publish_enabled_ <;> cases hp : b.pub_map_.find conv.name <;>
      cases b.record_enabled_ <;> cases hr : b.rec_map_.find conv.name <;> simp
  · cases b.publish_enabled_ <;> cases hp : b.pub_map_.find conv.name <;>
      cases b.record_enabled_ <;> cases hr : b.rec_map_.find conv.name <;> simp
  · generalize (b.publish_enabled_ && (match b.pub_map_.find conv.name with
                                      | some pub => pub.isSubscribed
                                      | none => false)) = P
    generalize (b.record_enabled_ && (match b.rec_map_.find conv.name with
                                     | some r => r.isSubscribed
                                     | none => false)) = R
    cases P <;> cases R <;> simp
  · intro pub hpub hinit
    have hs := Publisher.isSubscribed_of_not_initialized pub hinit
    simp only [hpub, hs, Bool.and_false]
    cases (b.record_enabled_ && (match b.rec_map_.find conv.name with
                                     | some r => r.isSubscribed
                                     | none => false)) <;> simp
  · intro prev2
    rw [Bridge.rosLoopBody_eq b prev2 now top conv htop hconv]
    rfl

/-- C1, instantiated on `exampleBridge` with a stale action list on entry. -/
theorem rosLoopBody_action_list_witness :
    ∃ r, exampleBridge.rosLoopBody [RECORD, RECORD] 5 = some r ∧
      (PUBLISH ∈ r.actions ↔
        (exampleBridge.publish_enabled_ = true ∧
          ∃ pub, exampleBridge.pub_map_.find "a" = some pub ∧ pub.isSubscribed = true)) ∧
      (RECORD ∈ r.actions ↔
        (exampleBridge.record_enabled_ = true ∧
          ∃ rc, exampleBridge.rec_map_.find "a" = some rc ∧ rc.isSubscribed = true)) ∧
      r.actions = [PUBLISH, RECORD].filter (fun a => decide (a ∈ r.actions)) ∧
      (∀ pub, exampleBridge.pub_map_.find "a" = some pub → pub.is_initialized_ = false →
        PUBLISH ∉ r.actions) ∧
      (∀ prev2, (exampleBridge.rosLoopBody prev2 5).map LoopResult.actions = some r.actions) :=
  rosLoopBody_action_list exampleBridge [RECORD, RECORD] 5 ⟨0, 0⟩ ⟨"a", 10⟩ rfl rfl

/-! ## Dispatch and rescheduling -/

theorem ConvQueue.mem_push (e : ScheduledConverter) (q : ConvQueue) : e ∈ ConvQueue.push e q := by
  induction q with
  | nil => simp [ConvQueue.push]
  | cons h t ih =>
    unfold ConvQueue.push
    split
    · simp
    · exact List.mem_cons_of_mem _ ih

theorem ConvQueue.push_perm (e : ScheduledConverter) (q : ConvQueue) :
    List.Perm (ConvQueue.push e q) (e :: q) := by
  induction q with
  | nil => simp [ConvQueue.push]
  | cons h t ih =>
    unfold ConvQueue.push
    split
    · exact List.Perm.refl _
    · exact (List.Perm.cons h ih).trans (List.Perm.swap e h t)

set_option maxRecDepth 100000 in
/-- The period the code computes at 10 Hz is one nanosecond more than a tenth of a second. -/
theorem rosDuration_10 : rosDuration 10 = some 100000001 := by decide

set_option maxRecDepth 100000 in
/-- The period the code computes at 15 Hz. -/
theorem rosDuration_15 : rosDuration 15 = some 66666670 := by decide

set_option maxRecDepth 100000 in
/-- At `2 ^ 31` Hz the period the code computes is 0 nanoseconds. -/
theorem rosDuration_2_pow_31 : rosDuration (2 ^ 31) = some 0 := by decide

set_option maxRecDepth 100000 in
/-- At `-1` Hz the period the code computes is minus one second. -/
theorem rosDuration_neg_1 : rosDuration (-1) = some (-1000000000) := by decide

/-- What a pass does with `callAll`: on a non-empty queue whose top index is inside
`converters_` it is invoked exactly once, on the due converter and with the
computed action list, when that list is non-empty, and not at all when it is
empty.  When neither `pub_map_` nor `rec_map_` has an entry for the due converter's
name the list is empty, whatever the flags are, and the top entry is popped all
the same. -/
theorem Bridge.rosLoopBody_callAll (b : Bridge) (prev : List MessageAction) (now : Time)
    (top : ScheduledConverter) (conv : Converter)
    (htop : b.conv_queue_.top = some top)
    (hconv : b.converters_[top.conv_index_]? = some conv) :
    ∃ r, b.rosLoopBody prev now = some r ∧
      (r.actions ≠ [] → r.callAll = [(top.conv_index_, r.actions)]) ∧
      (r.actions = [] → r.callAll = []) ∧
      (b.pub_map_.find conv.name = none → b.rec_map_.find conv.name = none →
        r.actions = [] ∧ r.callAll = []) ∧
      r.bridge.conv_queue_ = requeue b.conv_queue_.pop top conv.frequency := by
  refine ⟨_, Bridge.rosLoopBody_eq b prev now top conv htop hconv, ?_, ?_, ?_, rfl⟩
  · generalize (b.publish_enabled_ && (match b.pub_map_.find conv.name with
                                      | some pub => pub.isSubscribed
                                      | none => false)) = P
    generalize (b.record_enabled_ && (match b.rec_map_.find conv.name with
                                     | some r => r.isSubscribed
                                     | none => false)) = R
    cases P <;> cases R <;> simp
  · generalize (b.publish_enabled_ && (match b.pub_map_.find conv.name with
                                      | some pub => pub.isSubscribed
                                      | none => false)) = P
    generalize (b.record_enabled_ && (match b.rec_map_.find conv.name with
                                     | some r => r.isSubscribed
                                     | none => false)) = R
    cases P <;> cases R <;> simp
  · intro hp hr
    simp [hp, hr]

set_option maxRecDepth 100000 in
/-- C2 (the code at the failing input): `backwardBridge` has one converter with no
sink and the non-zero frequency `-1`, due at 10 s.  The pass at 10 s does not
invoke `callAll`, does not throw, pops the entry and pushes it again with due
time 9 s: the only entry of the queue is earlier than the popped one, not later. -/
theorem rosLoopBody_reschedules_earlier :
    backwardBridge.converters_[0]? = some ⟨"x", -1⟩ ∧
    backwardBridge.conv_queue_.top = some ⟨10000000000, 0⟩ ∧
    backwardBridge.pub_map_.find "x" = none ∧
    backwardBridge.rec_map_.find "x" = none ∧
    ∃ r, backwardBridge.rosLoopBody [] 10000000000 = some r ∧
      r.callAll = [] ∧
      r.thrown = false ∧
      r.bridge.conv_queue_ = [⟨9000000000, 0⟩] ∧
      ¬ ∃ e ∈ r.bridge.conv_queue_, (10000000000 : Time) < e.schedule_ := by
  refine ⟨rfl, rfl, rfl, rfl, _,
    Bridge.rosLoopBody_eq backwardBridge [] 10000000000 ⟨10000000000, 0⟩ ⟨"x", -1⟩ rfl rfl,
    ?_, ?_, ?_, ?_⟩
  · rfl
  · decide
  · decide
  · decide

set_option maxRecDepth 100000 in
/-- The same converter due at time 0: the new due time would be negative, the sum
throws after the pop and the entry is not pushed again. -/
theorem rosLoopBody_throws_below_zero :
    ∃ r, Bridge.rosLoopBody { backwardBridge with conv_queue_ := [⟨0, 0⟩] } [] 0 = some r ∧
      r.thrown = true ∧ r.bridge.conv_queue_ = [] := by
  refine ⟨_, Bridge.rosLoopBody_eq { backwardBridge with conv_queue_ := [⟨0, 0⟩] } [] 0
    ⟨0, 0⟩ ⟨"x", -1⟩ rfl rfl, ?_, ?_⟩
  · decide
  · decide

set_option maxRecDepth 100000 in
/-- A converter at `2 ^ 31` Hz is pushed again with the due time it had. -/
theorem requeue_same_time_at_2_pow_31 :
    requeue [] ⟨10000000000, 0⟩ (2 ^ 31) = [⟨10000000000, 0⟩] := by
  decide

/-! ## The schedule -/

theorem requeue_cases (rest : ConvQueue) (top : ScheduledConverter) (frequency : ℚ) :
    requeue rest top frequency = rest ∨
      ∃ next, requeue rest top frequency = ConvQueue.push ⟨next, top.conv_index_⟩ rest := by
  unfold requeue
  split
  · split
    · rename_i next _
      exact Or.inr ⟨next, rfl⟩
    · exact Or.inl rfl
  · exact Or.inl rfl

theorem mem_requeue_of_mem (rest : ConvQueue) (top : ScheduledConverter) (frequency : ℚ)
    (e : ScheduledConverter) (he : e ∈ rest) : e ∈ requeue rest top frequency := by
  rcases requeue_cases rest top frequency with h | ⟨next, h⟩
  · rw [h]; exact he
  · rw [h]; exact (ConvQueue.push_perm _ rest).symm.subset (List.mem_cons_of_mem _ he)

theorem index_of_mem_requeue (rest : ConvQueue) (top : ScheduledConverter) (frequency : ℚ)
    (e : ScheduledConverter) (he : e ∈ requeue rest top frequency) :
    e.conv_index_ = top.conv_index_ ∨ e ∈ rest := by
  rcases requeue_cases rest top frequency with h | ⟨next, h⟩
  · rw [h] at he; exact Or.inr he
  · rw [h] at he
    rcases List.mem_cons.mp ((ConvQueue.push_perm _ rest).subset he) with h1 | h1
    · exact Or.inl (by rw [h1])
    · exact Or.inr h1

theorem requeue_nodup (rest : ConvQueue) (top : ScheduledConverter) (frequency : ℚ)
    (hn : ((top :: rest).map ScheduledConverter.conv_index_).Nodup) :
    ((requeue rest top frequency).map ScheduledConverter.conv_index_).Nodup := by
  rcases requeue_cases rest top frequency with h | ⟨next, h⟩
  · rw [h]
    rw [List.map_cons] at hn
    exact (List.nodup_cons.mp hn).2
  · rw [h]
    have hp := (ConvQueue.push_perm ⟨next, top.conv_index_⟩ rest).map
      ScheduledConverter.conv_index_
    exact hp.nodup_iff.mpr hn

/-- With a period of `d` nanoseconds and the sum inside the range of `ros::Time`, the
new due time is the old one plus `d`. -/
theorem nextSchedule_of_period (t : Time) (frequency : ℚ) (d : Nat)
    (hd : rosDuration frequency = some (d : Duration)) (hb : t + d < 2 ^ 32 * 10 ^ 9) :
    nextSchedule t frequency = some (t + d) := by
  unfold nextSchedule
  rw [hd]
  show addDuration t (d : Duration) = some (t + d)
  unfold addDuration
  have hcast : ((t : Int) + (d : Int)) = ((t + d : Nat) : Int) := by push_cast; rfl
  have hlt : ((t + d : Nat) : Int) < 2 ^ 32 * 10 ^ 9 := by exact_mod_cast hb
  rw [hcast]
  rw [if_pos ⟨Int.natCast_nonneg _, hlt⟩, Int.toNat_natCast]

theorem requeue_of_period (rest : ConvQueue) (top : ScheduledConverter) (frequency : ℚ)
    (d : Nat) (hf : frequency ≠ 0) (hd : rosDuration frequency = some (d : Duration))
    (hb : top.schedule_ + d < 2 ^ 32 * 10 ^ 9) :
    requeue rest top frequency = ConvQueue.push ⟨top.schedule_ + d, top.conv_index_⟩ rest ∧
    requeueThrows top.schedule_ frequency = false := by
  unfold requeue requeueThrows
  rw [nextSchedule_of_period top.schedule_ frequency d hd hb]
  simp [hf]

/-- For a positive frequency the period the code computes is not negative. -/
theorem rosDuration_nonneg (frequency : ℚ) (d : Duration) (hf : 0 < frequency)
    (hd : rosDuration frequency = some d) : 0 ≤ d := by
  have hnum : 0 < frequency.num := Rat.num_pos.mpr hf
  have hnot : ¬ frequency.num < 0 := not_lt.mpr (le_of_lt hnum)
  unfold rosDuration at hd
  simp only [hnot, if_false] at hd
  split at hd
  · cases hd
  · split at hd
    · cases hd
    · split at hd
      · cases hd
      · have := Option.some.inj hd
        rw [← this]
        refine add_nonneg (mul_nonneg (Int.natCast_nonneg _) ?_) (Int.natCast_nonneg _)
        exact pow_nonneg (by decide) 9

/-- One pass on a bridge whose queued indices are valid: either the queue is empty
and nothing changes, or the top entry is popped and pushed again as `rosLoop`
prescribes. -/
theorem Bridge.rosLoopBody_step (b : Bridge) (prev : List MessageAction) (now : Time)
    (hv : b.QueueValid) :
    ∃ r, b.rosLoopBody prev now = some r ∧
      ((b.conv_queue_ = [] ∧ r.bridge = b ∧ r.conv_index = none ∧ r.thrown = false) ∨
       (∃ top rest conv, b.conv_queue_ = top :: rest ∧
          b.converters_[top.conv_index_]? = some conv ∧
          r.conv_index = some top.conv_index_ ∧
          r.bridge = { b with conv_queue_ := requeue rest top conv.frequency } ∧
          r.thrown = requeueThrows top.schedule_ conv.frequency)) := by
  cases hq : b.conv_queue_ with
  | nil =>
    refine ⟨{ bridge := b, actions := [], callAll := [], conv_index := none,
              slept := 10 ^ 9, thrown := false }, ?_, Or.inl ⟨rfl, rfl, rfl, rfl⟩⟩
    simp [Bridge.rosLoopBody, hq, ConvQueue.top, clear]
  | cons top rest =>
    have hlt : top.conv_index_ < b.converters_.length := hv top (by simp [hq])
    have hconv : b.converters_[top.conv_index_]? = some (b.converters_[top.conv_index_]) :=
      List.getElem?_eq_getElem hlt
    have htop : b.conv_queue_.top = some top := by simp [hq, ConvQueue.top]
    refine ⟨_, Bridge.rosLoopBody_eq b prev now top _ htop hconv,
      Or.inr ⟨top, rest, _, rfl, hconv, rfl, ?_, rfl⟩⟩
    simp [hq, ConvQueue.pop]

/-- One pass keeps `converters_`, the validity of the queued indices and their
distinctness. -/
theorem Bridge.rosLoopBody_preserves (b : Bridge) (prev : List MessageAction) (now : Time)
    (hv : b.QueueValid) (hn : b.QueueNodup) (r : LoopResult)
    (hr : b.rosLoopBody prev now = some r) :
    r.bridge.converters_ = b.converters_ ∧ r.bridge.QueueValid ∧ r.bridge.QueueNodup := by
  obtain ⟨r2, hr2, hcase⟩ := Bridge.rosLoopBody_step b prev now hv
  have hrr : r2 = r := Option.some.inj (hr2.symm.trans hr)
  subst hrr
  rcases hcase with ⟨_, hb, _⟩ | ⟨top, rest, conv, hq, hconv, _, hb, _⟩
  · rw [hb]; exact ⟨rfl, hv, hn⟩
  · have hvq : ∀ e ∈ top :: rest, e.conv_index_ < b.converters_.length := by
      intro e he; exact hv e (hq ▸ he)
    have hnq : ((top :: rest).map ScheduledConverter.conv_index_).Nodup := by
      have := hn; unfold Bridge.QueueNodup at this; rwa [hq] at this
    rw [hb]
    refine ⟨rfl, ?_, requeue_nodup rest top conv.frequency hnq⟩
    intro e he
    rcases index_of_mem_requeue rest top conv.frequency e he with h | h
    · change e.conv_index_ < b.converters_.length
      rw [h]; exact hvq top (List.mem_cons_self _ _)
    · exact hvq e (List.mem_cons_of_mem _ h)

theorem period_bounds (t n d limit : Nat) (h : t + (n + 1) * d < limit) :
    t + d < limit ∧ t + d + n * d < limit ∧ t + n * d < limit := by
  have hmul : (n + 1) * d = n * d + d := Nat.succ_mul _ _
  rw [hmul] at h
  generalize n * d = m at h ⊢
  omega

/-- The law of a run of `rosLoop`: the run returns, and an entry queued with due time
`t` for a converter whose period is `d` nanoseconds is queued with due time
`t + k * d` after the run, `k` being the number of passes in which it was due,
provided `t + n * d` is a valid `ros::Time` for the number `n` of clock readings. -/
theorem Bridge.rosLoop_due (clock : List Time) :
    ∀ (b : Bridge) (prev : List MessageAction), b.QueueValid → b.QueueNodup →
      ∃ b2 trace, b.rosLoop prev clock = some (b2, trace) ∧
        b2.converters_ = b.converters_ ∧ b2.QueueValid ∧ b2.QueueNodup ∧
        ∀ e ∈ b.conv_queue_, ∀ (conv : Converter) (d : Nat),
          b.converters_[e.conv_index_]? = some conv → conv.frequency ≠ 0 →
          rosDuration conv.frequency = some (d : Duration) →
          e.schedule_ + clock.length * d < 2 ^ 32 * 10 ^ 9 →
          (⟨e.schedule_ + dispatchCount trace e.conv_index_ * d, e.conv_index_⟩ :
            ScheduledConverter) ∈ b2.conv_queue_ := by
  induction clock with
  | nil =>
    intro b prev hv hn
    refine ⟨b, [], rfl, rfl, hv, hn, ?_⟩
    intro e he conv d _ _ _ _
    simpa [dispatchCount] using he
  | cons now clock ih =>
    intro b prev hv hn
    unfold Bridge.rosLoop
    split
    · obtain ⟨r, hr, hcase⟩ := Bridge.rosLoopBody_step b prev now hv
      obtain ⟨hc1, hv1, hn1⟩ := Bridge.rosLoopBody_preserves b prev now hv hn r hr
      obtain ⟨b2, trace, hrun, hc2, hv2, hn2, hdue⟩ := ih r.bridge r.actions hv1 hn1
      rcases hcase with ⟨hq, hb, hidx, hth⟩ | ⟨top, rest, conv0, hq, hconv0, hidx, hb, hth⟩
      · refine ⟨b2, r :: trace, by simp [hr, hth, hrun], hc2.trans hc1, hv2, hn2, ?_⟩
        intro e he
        rw [hq] at he
        simp at he
      · have hnq : ((top :: rest).map ScheduledConverter.conv_index_).Nodup := by
          have := hn; unfold Bridge.QueueNodup at this; rwa [hq] at this
        have hqr : r.bridge.conv_queue_ = requeue rest top conv0.frequency := by rw [hb]
        cases hthrown : r.thrown with
        | true =>
          -- the exception ends the run; the due entry is not pushed again
          refine ⟨r.bridge, [r], by simp [hr, hthrown], hc1, hv1, hn1, ?_⟩
          intro e he conv d hconv hf hd hbound
          rw [hq] at he
          obtain ⟨hb1, _, _⟩ := period_bounds e.schedule_ clock.length d _ hbound
          rcases List.mem_cons.mp he with h | h
          · exfalso
            subst h
            have hcc : conv0 = conv := Option.some.inj (hconv0.symm.trans hconv)
            subst hcc
            have := (requeue_of_period rest e conv0.frequency d hf hd hb1).2
            rw [← hth, hthrown] at this
            cases this
          · have hne : top.conv_index_ ≠ e.conv_index_ := by
              intro heq
              rw [List.map_cons] at hnq
              exact (List.nodup_cons.mp hnq).1 (List.mem_map.mpr ⟨e, h, heq.symm⟩)
            have hcount : dispatchCount [r] e.conv_index_ = 0 := by
              simp only [dispatchCount, List.filterMap_cons, hidx, List.filterMap_nil]
              exact List.count_eq_zero.mpr (by simpa using Ne.symm hne)
            rw [hcount, hqr, Nat.zero_mul, Nat.add_zero]
            exact mem_requeue_of_mem rest top conv0.frequency e h
        | false =>
          refine ⟨b2, r :: trace, by simp [hr, hthrown, hrun], hc2.trans hc1, hv2, hn2, ?_⟩
          intro e he conv d hconv hf hd hbound
          rw [hq] at he
          obtain ⟨hb1, hbound1, hbound2⟩ := period_bounds e.schedule_ clock.length d _ hbound
          rcases List.mem_cons.mp he with h | h
          · -- the entry that was due
            subst h
            have hcc : conv0 = conv := Option.some.inj (hconv0.symm.trans hconv)
            subst hcc
            have hmem : (⟨e.schedule_ + d, e.conv_index_⟩ : ScheduledConverter)
                ∈ r.bridge.conv_queue_ := by
              rw [hqr, (requeue_of_period rest e conv0.frequency d hf hd hb1).1]
              exact ConvQueue.mem_push _ _
            have h1 := hdue _ hmem conv0 d (by rw [hc1]; exact hconv) hf hd hbound1
            have hcount : dispatchCount (r :: trace) e.conv_index_ =
                dispatchCount trace e.conv_index_ + 1 := by
              simp [dispatchCount, List.filterMap_cons, hidx]
            rw [hcount]
            have harith : e.schedule_ + (dispatchCount trace e.conv_index_ + 1) * d
                = e.schedule_ + d + dispatchCount trace e.conv_index_ * d := by ring
            rw [harith]
            exact h1
          · -- another entry
            have hne : top.conv_index_ ≠ e.conv_index_ := by
              intro heq
              rw [List.map_cons] at hnq
              exact (List.nodup_cons.mp hnq).1 (List.mem_map.mpr ⟨e, h, heq.symm⟩)
            have hmem : e ∈ r.bridge.conv_queue_ := by
              rw [hqr]
              exact mem_requeue_of_mem rest top conv0.frequency e h
            have h1 := hdue e hmem conv d (by rw [hc1]; exact hconv) hf hd hbound2
            have hcount : dispatchCount (r :: trace) e.conv_index_ =
                dispatchCount trace e.conv_index_ := by
              simp only [dispatchCount, List.filterMap_cons, hidx]
              exact List.count_cons_of_ne (Ne.symm hne) _
            rw [hcount]
            exact h1
    · refine ⟨b, [], rfl, rfl, hv, hn, ?_⟩
      intro e he conv d _ _ _ _
      simpa [dispatchCount] using he

/-- A bridge that is not cancelled and has a single queued converter whose period
is `d` nanoseconds: `k` passes of `rosLoop` are `k` consecutive dispatches of it,
none of which throws while `t + k * d` is a valid `ros::Time`. -/
theorem Bridge.rosLoop_single (clock : List Time) :
    ∀ (b : Bridge) (prev : List MessageAction) (t : Time) (i : Nat) (conv : Converter)
      (d : Nat),
      b.conv_queue_ = [⟨t, i⟩] → b.converters_[i]? = some conv → conv.frequency ≠ 0 →
      rosDuration conv.frequency = some (d : Duration) →
      t + clock.length * d < 2 ^ 32 * 10 ^ 9 →
      b.publish_cancelled_ = false → b.record_cancelled_ = false →
      ∃ b2 trace, b.rosLoop prev clock = some (b2, trace) ∧
        trace.length = clock.length ∧
        (∀ r ∈ trace, r.thrown = false) ∧
        dispatchCount trace i = clock.length ∧
        b2.conv_queue_ = [⟨t + clock.length * d, i⟩] := by
  induction clock with
  | nil =>
    intro b prev t i conv d hq _ _ _ _ _ _
    exact ⟨b, [], rfl, rfl, by simp, rfl, by simp [hq]⟩
  | cons now clock ih =>
    intro b prev t i conv d hq hconv hf hd hbound hpc hrc
    have hv : b.QueueValid := by
      intro e he
      rw [hq, List.mem_singleton] at he
      subst he
      by_contra hlt
      rw [List.getElem?_eq_none (Nat.le_of_not_lt hlt)] at hconv
      cases hconv
    obtain ⟨hb1, hbound1, _⟩ := period_bounds t clock.length d _ hbound
    obtain ⟨r, hr, hcase⟩ := Bridge.rosLoopBody_step b prev now hv
    rcases hcase with ⟨hq0, _, _⟩ | ⟨top, rest, conv0, hq0, hconv0, hidx, hb, hth⟩
    · rw [hq] at hq0; cases hq0
    · rw [hq] at hq0
      injection hq0 with h1 h2
      subst h1 h2
      have hcc : conv0 = conv := Option.some.inj (hconv0.symm.trans hconv)
      subst hcc
      obtain ⟨hre, hnothrown⟩ := requeue_of_period [] ⟨t, i⟩ conv0.frequency d hf hd hb1
      have hqueue : r.bridge.conv_queue_ = [⟨t + d, i⟩] := by
        rw [hb]
        show requeue [] ⟨t, i⟩ conv0.frequency = [⟨t + d, i⟩]
        rw [hre]
        rfl
      have hthrown : r.thrown = false := hth.trans hnothrown
      obtain ⟨b2, trace, hrun, hlen, hall, hcount, hfin⟩ :=
        ih r.bridge r.actions (t + d) i conv0 d hqueue
          (by rw [hb]; exact hconv) hf hd hbound1 (by rw [hb]; exact hpc) (by rw [hb]; exact hrc)
      refine ⟨b2, r :: trace, ?_, ?_, ?_, ?_, ?_⟩
      · unfold Bridge.rosLoop
        simp [hpc, hrc, hr, hthrown, hrun]
      · simp [hlen]
      · intro r2 hr2
        rcases List.mem_cons.mp hr2 with h | h
        · rw [h]; exact hthrown
        · exact hall r2 h
      · simp only [dispatchCount, List.filterMap_cons, hidx, List.count_cons_self,
          List.length_cons]
        exact congrArg (· + 1) hcount
      · rw [hfin]
        simp only [List.length_cons]
        congr 2
        ring

/-- C3 (amended): on a non-empty queue with top entry `(schedule, i)` and
`converters_[i]` of frequency `f`, a pass of the `rosLoop` body leaves the old queue
without that entry when `f = 0` (one entry fewer).  When `f` is positive, the period
`ros::Duration( 1.0f / f )` is a number `d ≥ 0` of nanoseconds, and while
`schedule + d` is a valid `ros::Time` the pass does not throw and leaves the old
queue with that entry removed and the single entry `(schedule + d, i)` pushed.
The new queue is the same for every clock reading and every former content of the
action vector.  Over a run of `rosLoop`, an entry queued with due time `t` for a
converter of positive frequency and period `d` is queued with due time `t + k * d`
after it was due `k` times; when it is the only entry of a bridge that is not
cancelled, `k` passes give exactly the queue `[(t + k * d, i)]`. -/
theorem rosLoop_schedule (b : Bridge) (top : ScheduledConverter) (conv : Converter)
    (htop : b.conv_queue_.top = some top)
    (hconv : b.converters_[top.conv_index_]? = some conv) :
    (∀ prev now, ∃ r, b.rosLoopBody prev now = some r ∧
      b.conv_queue_ = top :: b.conv_queue_.pop ∧
      (conv.frequency = 0 →
        r.thrown = false ∧
        r.bridge.conv_queue_ = b.conv_queue_.pop ∧
        r.bridge.conv_queue_.length + 1 = b.conv_queue_.length) ∧
      (0 < conv.frequency → ∀ d : Nat, rosDuration conv.frequency = some (d : Duration) →
        top.schedule_ + d < 2 ^ 32 * 10 ^ 9 →
        r.thrown = false ∧
        r.bridge.conv_queue_ = b.conv_queue_.pop.push ⟨top.schedule_ + d, top.conv_index_⟩ ∧
        List.Perm r.bridge.conv_queue_ (⟨top.schedule_ + d, top.conv_index_⟩ :: b.conv_queue_.pop) ∧
        r.bridge.conv_queue_.length = b.conv_queue_.length) ∧
      (∀ prev2 now2, (b.rosLoopBody prev2 now2).map (fun r2 => r2.bridge.conv_queue_) =
        some r.bridge.conv_queue_)) ∧
    (0 < conv.frequency → ∀ d : Duration, rosDuration conv.frequency = some d → 0 ≤ d) ∧
    (b.QueueValid → b.QueueNodup → ∀ prev clock,
      ∃ b2 trace, b.rosLoop prev clock = some (b2, trace) ∧ b2.QueueNodup ∧
        ∀ e ∈ b.conv_queue_, ∀ (c : Converter) (d : Nat),
          b.converters_[e.conv_index_]? = some c → 0 < c.frequency →
          rosDuration c.frequency = some (d : Duration) →
          e.schedule_ + clock.length * d < 2 ^ 32 * 10 ^ 9 →
          (⟨e.schedule_ + dispatchCount trace e.conv_index_ * d, e.conv_index_⟩ :
            ScheduledConverter) ∈ b2.conv_queue_) ∧
    (b.conv_queue_ = [top] → 0 < conv.frequency →
      b.publish_cancelled_ = false → b.record_cancelled_ = false →
      ∀ (d : Nat) prev clock, rosDuration conv.frequency = some (d : Duration) →
      top.schedule_ + clock.length * d < 2 ^ 32 * 10 ^ 9 →
      ∃ b2 trace, b.rosLoop prev clock = some (b2, trace) ∧
        (∀ r ∈ trace, r.thrown = false) ∧
        dispatchCount trace top.conv_index_ = clock.length ∧
        b2.conv_queue_ = [⟨top.schedule_ + clock.length * d, top.conv_index_⟩]) := by
  have hq : b.conv_queue_ = top :: b.conv_queue_.pop := by
    cases hb : b.conv_queue_ with
    | nil => simp [hb, ConvQueue.top] at htop
    | cons h t =>
      simp only [hb, ConvQueue.top, List.head?_cons, Option.some.injEq] at htop
      simp [ConvQueue.pop, htop]
  refine ⟨?_, ?_, ?_, ?_⟩
  · intro prev now
    refine ⟨_, Bridge.rosLoopBody_eq b prev now top conv htop hconv, hq, ?_, ?_, ?_⟩
    · intro hf
      have hre : requeue b.conv_queue_.pop top conv.frequency = b.conv_queue_.pop := by
        simp [requeue, hf]
      refine ⟨by simp [requeueThrows, hf], hre, ?_⟩
      show (requeue b.conv_queue_.pop top conv.frequency).length + 1 = b.conv_queue_.length
      rw [hre]
      conv_rhs => rw [hq]
      simp
    · intro hf d hd hbound
      obtain ⟨hre, hnothrown⟩ :=
        requeue_of_period b.conv_queue_.pop top conv.frequency d (ne_of_gt hf) hd hbound
      refine ⟨hnothrown, hre, ?_, ?_⟩
      · show List.Perm (requeue b.conv_queue_.pop top conv.frequency) _
        rw [hre]
        exact ConvQueue.push_perm _ _
      · show (requeue b.conv_queue_.pop top conv.frequency).length = b.conv_queue_.length
        rw [hre, (ConvQueue.push_perm _ _).length_eq]
        conv_rhs => rw [hq]
        simp
    · intro prev2 now2
      rw [Bridge.rosLoopBody_eq b prev2 now2 top conv htop hconv]
      rfl
  · intro hf d hd
    exact rosDuration_nonneg conv.frequency d hf hd
  · intro hv hn prev clock
    obtain ⟨b2, trace, hrun, _, _, hn2, hdue⟩ := Bridge.rosLoop_due clock b prev hv hn
    refine ⟨b2, trace, hrun, hn2, ?_⟩
    intro e he c d hc hf hd hbound
    exact hdue e he c d hc (ne_of_gt hf) hd hbound
  · intro hsingle hf hpc hrc d prev clock hd hbound
    obtain ⟨b2, trace, hrun, _, hall, hcount, hfin⟩ :=
      Bridge.rosLoop_single clock b prev top.schedule_ top.conv_index_ conv d hsingle hconv
        (ne_of_gt hf) hd hbound hpc hrc
    exact ⟨b2, trace, hrun, hall, hcount, hfin⟩

set_option maxRecDepth 100000 in
/-- C3 (amended), instantiated: three passes on `exampleBridge`, whose only
converter runs at 10 Hz with the period 100000001 ns. -/
theorem rosLoop_schedule_witness :
    exampleBridge.conv_queue_.top = some ⟨0, 0⟩ ∧
    exampleBridge.converters_[0]? = some ⟨"a", 10⟩ ∧
    rosDuration 10 = some ((100000001 : Nat) : Duration) ∧
    ∃ b2 trace, exampleBridge.rosLoop [] [5, 6, 7] = some (b2, trace) ∧
      (∀ r ∈ trace, r.thrown = false) ∧
      dispatchCount trace 0 = 3 ∧
      b2.conv_queue_ = [⟨0 + ([5, 6, 7] : List Time).length * 100000001, 0⟩] :=
  ⟨rfl, rfl, by decide,
    (rosLoop_schedule exampleBridge ⟨0, 0⟩ ⟨"a", 10⟩ rfl rfl).2.2.2 rfl (by norm_num) rfl rfl
      100000001 [] [5, 6, 7] (by decide) (by decide)⟩

set_option maxRecDepth 100000 in
/-- C3 as stated fails.  At 10 Hz the entry due at time 0 is pushed again with due
time 100000001 ns, the single-precision quotient in whole nanoseconds, and not with
`0 + 1 / 10` seconds.  And a frequency that is not 0 does not suffice for the entry
to be pushed again: due one nanosecond before `2 ^ 32` seconds, the sum is no
`ros::Time`, the pass throws after the pop and the queue is left empty. -/
theorem rosLoopBody_period_rounded :
    (∃ r, exampleBridge.rosLoopBody [] 0 = some r ∧
      r.bridge.conv_queue_ = [⟨100000001, 0⟩] ∧
      ((100000001 : ℚ) / 10 ^ 9 ≠ 0 + 1 / 10)) ∧
    (∃ r, Bridge.rosLoopBody { exampleBridge with conv_queue_ := [⟨2 ^ 32 * 10 ^ 9 - 1, 0⟩] }
        [] 0 = some r ∧
      (10 : ℚ) ≠ 0 ∧ r.thrown = true ∧ r.bridge.conv_queue_ = []) := by
  refine ⟨⟨_, Bridge.rosLoopBody_eq exampleBridge [] 0 ⟨0, 0⟩ ⟨"a", 10⟩ rfl rfl, ?_, ?_⟩,
    ⟨_, Bridge.rosLoopBody_eq { exampleBridge with conv_queue_ := [⟨2 ^ 32 * 10 ^ 9 - 1, 0⟩] }
      [] 0 ⟨2 ^ 32 * 10 ^ 9 - 1, 0⟩ ⟨"a", 10⟩ rfl rfl, ?_, ?_, ?_⟩⟩
  · decide
  · norm_num
  · norm_num
  · decide
  · decide

/-! ## The publish flag and the schedule -/

theorem Bridge.EqUpToPublish.refl (b : Bridge) : b.EqUpToPublish b := rfl

theorem Bridge.EqUpToPublish.set (b b2 : Bridge) (flag : Bool) (h : b.EqUpToPublish b2) :
    b.EqUpToPublish { b2 with publish_enabled_ := flag } := by
  unfold Bridge.EqUpToPublish at h ⊢
  rw [h]

theorem Bridge.EqUpToPublish.queue_valid (b b2 : Bridge) (h : b.EqUpToPublish b2)
    (hv : b.QueueValid) : b2.QueueValid := by
  unfold Bridge.EqUpToPublish at h
  rw [h]; exact hv

/-- A pass on two states that differ at most in `publish_enabled_` returns on both,
throws on both or on neither, and leaves two states that differ at most in
`publish_enabled_`. -/
theorem Bridge.EqUpToPublish.pass_related (b b2 : Bridge) (h : b.EqUpToPublish b2)
    (hv : b.QueueValid) (prev prev2 : List MessageAction) (now now2 : Time) :
    ∃ r r2, b.rosLoopBody prev now = some r ∧ b2.rosLoopBody prev2 now2 = some r2 ∧
      r.bridge.EqUpToPublish r2.bridge ∧ r.bridge.QueueValid ∧ r.thrown = r2.thrown := by
  have hv2 := Bridge.EqUpToPublish.queue_valid b b2 h hv
  obtain ⟨r, hr, hcase⟩ := Bridge.rosLoopBody_step b prev now hv
  obtain ⟨r2, hr2, hcase2⟩ := Bridge.rosLoopBody_step b2 prev2 now2 hv2
  have hvr : r.bridge.QueueValid := by
    rcases hcase with ⟨_, hb, _⟩ | ⟨top, rest, conv, hq, hconv, _, hb, _⟩
    · rw [hb]; exact hv
    · intro e he
      rw [hb] at he ⊢
      have hvq : ∀ e ∈ top :: rest, e.conv_index_ < b.converters_.length := by
        intro e he; exact hv e (hq ▸ he)
      rcases index_of_mem_requeue rest top conv.frequency e he with h1 | h1
      · change e.conv_index_ < b.converters_.length
        rw [h1]; exact hvq top (List.mem_cons_self _ _)
      · exact hvq e (List.mem_cons_of_mem _ h1)
  have hqeq : b2.conv_queue_ = b.conv_queue_ := by
    unfold Bridge.EqUpToPublish at h; rw [h]
  have hceq : b2.converters_ = b.converters_ := by
    unfold Bridge.EqUpToPublish at h; rw [h]
  rcases hcase with ⟨hq, hb, _, hth⟩ | ⟨top, rest, conv, hq, hconv, _, hb, hth⟩ <;>
    rcases hcase2 with ⟨hq2, hb2, _, hth2⟩ | ⟨top2, rest2, conv2, hq2, hconv2, _, hb2, hth2⟩
  · refine ⟨r, r2, hr, hr2, ?_, hvr, hth.trans hth2.symm⟩
    rw [hb, hb2]; exact h
  · rw [hqeq, hq] at hq2; cases hq2
  · rw [hqeq, hq] at hq2; cases hq2
  · rw [hqeq, hq] at hq2
    injection hq2 with h1 h2
    subst h1 h2
    rw [hceq] at hconv2
    have hcc : conv2 = conv := Option.some.inj (hconv2.symm.trans hconv)
    subst hcc
    refine ⟨r, r2, hr, hr2, ?_, hvr, hth.trans hth2.symm⟩
    rw [hb, hb2]
    unfold Bridge.EqUpToPublish at h ⊢
    rw [h]

theorem Bridge.EqUpToPublish.set_left (b b2 : Bridge) (flag : Bool) (h : b.EqUpToPublish b2) :
    Bridge.EqUpToPublish { b with publish_enabled_ := flag } b2 := by
  unfold Bridge.EqUpToPublish at h ⊢
  rw [h]

/-- A run with toggles and the same run without them end in states that differ at
most in `publish_enabled_`. -/
theorem runEvents_erase_toggles (evs : List Event) :
    ∀ (b b2 : Bridge) (prev prev2 : List MessageAction), b.EqUpToPublish b2 → b.QueueValid →
      ∃ c c2, runEvents b prev evs = some c ∧
        runEvents b2 prev2 (evs.filter Event.isPass) = some c2 ∧ c.EqUpToPublish c2 := by
  induction evs with
  | nil =>
    intro b b2 prev prev2 h _
    exact ⟨b, b2, rfl, rfl, h⟩
  | cons ev evs ih =>
    intro b b2 prev prev2 h hv
    cases ev with
    | pass now =>
      have hpc : b2.publish_cancelled_ = b.publish_cancelled_ := by
        unfold Bridge.EqUpToPublish at h; rw [h]
      have hrc : b2.record_cancelled_ = b.record_cancelled_ := by
        unfold Bridge.EqUpToPublish at h; rw [h]
      simp only [List.filter_cons, Event.isPass, if_true, runEvents, hpc, hrc]
      split
      · obtain ⟨r, r2, hr, hr2, hrel, hvr, hth⟩ :=
          Bridge.EqUpToPublish.pass_related b b2 h hv prev prev2 now now
        simp only [hr, hr2, ← hth]
        cases hthrown : r.thrown with
        | true => exact ⟨r.bridge, r2.bridge, by simp, by simp, hrel⟩
        | false =>
          simpa using ih r.bridge r2.bridge r.actions r2.actions hrel hvr
      · exact ih b b2 prev prev2 h hv
    | startPublishing =>
      simp only [List.filter_cons, Event.isPass, runEvents]
      exact ih b.startPublishing b2 prev prev2 (Bridge.EqUpToPublish.set_left b b2 true h) hv
    | stopPublishing =>
      simp only [List.filter_cons, Event.isPass, runEvents]
      exact ih b.stopPublishing b2 prev prev2 (Bridge.EqUpToPublish.set_left b b2 false h) hv

/-- C4: on a bridge whose queued indices are valid, a pass of the `rosLoop` body
returns the same timer queue whatever `publish_enabled_` is, and while
`publish_enabled_` is false no pass puts `PUBLISH` in the action list.
`stopPublishing` and `startPublishing` write `publish_enabled_` and leave the
queue, the converters, both sink maps and the record flag as they are, and a
sequence of passes interleaved with the two toggles ends with the same queue as
the same passes without the toggles. -/
theorem publish_flag_keeps_schedule (b : Bridge) (hv : b.QueueValid) :
    (∀ flag prev prev2 now, ∃ r r2, b.rosLoopBody prev now = some r ∧
      Bridge.rosLoopBody { b with publish_enabled_ := flag } prev2 now = some r2 ∧
      r2.bridge.conv_queue_ = r.bridge.conv_queue_) ∧
    (b.publish_enabled_ = false →
      ∀ prev now, ∃ r, b.rosLoopBody prev now = some r ∧ PUBLISH ∉ r.actions) ∧
    (b.stopPublishing.publish_enabled_ = false ∧ b.startPublishing.publish_enabled_ = true ∧
      b.stopPublishing.conv_queue_ = b.conv_queue_ ∧
      b.startPublishing.conv_queue_ = b.conv_queue_ ∧
      b.stopPublishing.converters_ = b.converters_ ∧
      b.startPublishing.converters_ = b.converters_ ∧
      b.stopPublishing.pub_map_ = b.pub_map_ ∧ b.startPublishing.pub_map_ = b.pub_map_ ∧
      b.stopPublishing.rec_map_ = b.rec_map_ ∧ b.startPublishing.rec_map_ = b.rec_map_ ∧
      b.stopPublishing.record_enabled_ = b.record_enabled_ ∧
      b.startPublishing.record_enabled_ = b.record_enabled_ ∧
      b.EqUpToPublish b.stopPublishing ∧ b.EqUpToPublish b.startPublishing) ∧
    (∀ prev evs, ∃ c c2, runEvents b prev evs = some c ∧
      runEvents b prev (evs.filter Event.isPass) = some c2 ∧
      c2.conv_queue_ = c.conv_queue_) := by
  refine ⟨?_, ?_, ?_, ?_⟩
  · intro flag prev prev2 now
    obtain ⟨r, r2, hr, hr2, hrel, _, _⟩ :=
      Bridge.EqUpToPublish.pass_related b { b with publish_enabled_ := flag }
        (Bridge.EqUpToPublish.set b b flag (Bridge.EqUpToPublish.refl b)) hv prev prev2 now now
    refine ⟨r, r2, hr, hr2, ?_⟩
    unfold Bridge.EqUpToPublish at hrel
    rw [hrel]
  · intro hpe prev now
    obtain ⟨r, hr, hcase⟩ := Bridge.rosLoopBody_step b prev now hv
    refine ⟨r, hr, ?_⟩
    rcases hcase with ⟨hq, _, _⟩ | ⟨top, rest, conv, hq, hconv, _, _⟩
    · have : b.rosLoopBody prev now = some
          { bridge := b, actions := [], callAll := [], conv_index := none, slept := 10 ^ 9,
            thrown := false } := by
        simp [Bridge.rosLoopBody, hq, ConvQueue.top, clear]
      rw [this] at hr
      rw [← Option.some.inj hr]
      simp
    · have htop : b.conv_queue_.top = some top := by simp [hq, ConvQueue.top]
      rw [Bridge.rosLoopBody_eq b prev now top conv htop hconv] at hr
      rw [← Option.some.inj hr]
      simp only [hpe, Bool.false_and]
      cases (b.record_enabled_ && (match b.rec_map_.find conv.name with
                                     | some r => r.isSubscribed
                                     | none => false)) <;> simp
  · exact ⟨rfl, rfl, rfl, rfl, rfl, rfl, rfl, rfl, rfl, rfl, rfl, rfl, rfl, rfl⟩
  · intro prev evs
    obtain ⟨c, c2, hc, hc2, hrel⟩ :=
      runEvents_erase_toggles evs b b prev prev (Bridge.EqUpToPublish.refl b) hv
    refine ⟨c, c2, hc, hc2, ?_⟩
    unfold Bridge.EqUpToPublish at hrel
    rw [hrel]

/-- C4, instantiated: `exampleBridge` with `stopPublishing` and `startPublishing`
between three passes. -/
theorem publish_flag_keeps_schedule_witness :
    exampleBridge.QueueValid ∧
    ∃ c c2,
      runEvents exampleBridge []
        [Event.pass 5, Event.stopPublishing, Event.pass 6, Event.startPublishing, Event.pass 7]
        = some c ∧
      runEvents exampleBridge []
        ([Event.pass 5, Event.stopPublishing, Event.pass 6, Event.startPublishing,
          Event.pass 7].filter Event.isPass) = some c2 ∧
      c2.conv_queue_ = c.conv_queue_ :=
  have hv : exampleBridge.QueueValid := by
    intro e he
    simp only [exampleBridge, List.mem_singleton] at he
    subst he
    decide
  ⟨hv, (publish_flag_keeps_schedule exampleBridge hv).2.2.2 []
    [Event.pass 5, Event.stopPublishing, Event.pass 6, Event.startPublishing, Event.pass 7]⟩

/-! ## The name-keyed sink maps -/

theorem keyLt_irrefl (a : String) : ¬ keyLt a a := fun h => lt_irrefl a.data h

theorem keyLt_trans {a b c : String} (h1 : keyLt a b) (h2 : keyLt b c) : keyLt a c :=
  lt_trans (α := List Char) h1 h2

theorem keyLt_asymm {a b : String} (h1 : keyLt a b) : ¬ keyLt b a :=
  fun h2 => lt_asymm (α := List Char) h1 h2

theorem keyLt_of_not_lt_of_ne {a b : String} (h1 : ¬ keyLt a b) (h2 : a ≠ b) : keyLt b a := by
  have hne : b.data ≠ a.data := fun h => h2 (String.ext h.symm)
  exact lt_of_le_of_ne (not_lt.mp h1) hne

namespace StdMap

variable {α : Type}

theorem WF_nil : WF ([] : StdMap α) := List.Pairwise.nil

theorem WF_cons {k : String} {v : α} {t : StdMap α} :
    WF ((k, v) :: t) ↔ (∀ e ∈ t, keyLt k e.1) ∧ WF t := by
  unfold WF
  exact List.pairwise_cons

theorem mem_of_find {m : StdMap α} {k : String} {v : α} (h : m.find k = some v) :
    (k, v) ∈ m := by
  induction m with
  | nil => simp [find] at h
  | cons hd t ih =>
    obtain ⟨k2, v2⟩ := hd
    unfold find at h
    split at h
    · rename_i hk
      have hv : v2 = v := Option.some.inj h
      rw [hk, hv]
      exact List.mem_cons_self _ _
    · exact List.mem_cons_of_mem _ (ih h)

theorem find_eq_none_of_below {m : StdMap α} {k : String}
    (h : ∀ e ∈ m, keyLt k e.1) : m.find k = none := by
  induction m with
  | nil => rfl
  | cons hd t ih =>
    obtain ⟨k2, v2⟩ := hd
    unfold find
    have hlt : keyLt k k2 := h (k2, v2) (List.mem_cons_self _ _)
    have hne : ¬ k2 = k := fun he => keyLt_irrefl k (he ▸ hlt)
    rw [if_neg hne]
    exact ih (fun e he => h e (List.mem_cons_of_mem _ he))

/-- In a well-formed map, `find` returns the value of the entry with that key. -/
theorem find_of_mem {m : StdMap α} {k : String} {v : α} (hwf : WF m) (h : (k, v) ∈ m) :
    m.find k = some v := by
  induction m with
  | nil => simp at h
  | cons hd t ih =>
    obtain ⟨k2, v2⟩ := hd
    obtain ⟨hlow, hwt⟩ := WF_cons.mp hwf
    unfold find
    rcases List.mem_cons.mp h with heq | hmem
    · injection heq with h1 h2
      rw [if_pos h1.symm, h2]
    · have hlt : keyLt k2 k := hlow (k, v) hmem
      have hne : ¬ k2 = k := fun he => keyLt_irrefl k (he ▸ hlt)
      rw [if_neg hne]
      exact ih hwt hmem

theorem mem_insert {m : StdMap α} {k : String} {v : α} {e : String × α}
    (h : e ∈ m.insert k v) : e = (k, v) ∨ e ∈ m := by
  induction m with
  | nil =>
    simp only [insert, List.mem_singleton] at h
    exact Or.inl h
  | cons hd t ih =>
    obtain ⟨k2, v2⟩ := hd
    unfold insert at h
    split at h
    · rcases List.mem_cons.mp h with h1 | h1
      · exact Or.inl h1
      · exact Or.inr h1
    · split at h
      · exact Or.inr h
      · rcases List.mem_cons.mp h with h1 | h1
        · exact Or.inr (h1 ▸ List.mem_cons_self _ _)
        · rcases ih h1 with h2 | h2
          · exact Or.inl h2
          · exact Or.inr (List.mem_cons_of_mem _ h2)

/-- The member `insert` keeps the keys strictly increasing. -/
theorem WF_insert {m : StdMap α} (k : String) (v : α) (hwf : WF m) : WF (m.insert k v) := by
  induction m with
  | nil => exact WF_cons.mpr ⟨by simp, WF_nil⟩
  | cons hd t ih =>
    obtain ⟨k2, v2⟩ := hd
    obtain ⟨hlow, hwt⟩ := WF_cons.mp hwf
    unfold insert
    split
    · rename_i hlt
      refine WF_cons.mpr ⟨?_, hwf⟩
      intro e he
      rcases List.mem_cons.mp he with h1 | h1
      · rw [h1]; exact hlt
      · exact keyLt_trans hlt (hlow e h1)
    · rename_i hnlt
      split
      · exact hwf
      · rename_i hne
        refine WF_cons.mpr ⟨?_, ih hwt⟩
        intro e he
        rcases mem_insert he with h1 | h1
        · rw [h1]; exact keyLt_of_not_lt_of_ne hnlt hne
        · exact hlow e h1

/-- Insert does not overwrite: with the key present the map is left as it is. -/
theorem insert_of_find_some {m : StdMap α} {k : String} {v0 : α} (v : α) (hwf : WF m)
    (h : m.find k = some v0) : m.insert k v = m := by
  induction m with
  | nil => simp [find] at h
  | cons hd t ih =>
    obtain ⟨k2, v2⟩ := hd
    obtain ⟨hlow, hwt⟩ := WF_cons.mp hwf
    unfold insert
    unfold find at h
    split
    · rename_i hlt
      exfalso
      have hne : ¬ k2 = k := fun he => keyLt_irrefl k (he ▸ hlt)
      rw [if_neg hne] at h
      exact keyLt_asymm hlt (hlow _ (mem_of_find h))
    · split
      · rfl
      · rename_i hne
        rw [if_neg (fun he => hne he.symm)] at h
        rw [ih hwt h]

/-- With the key absent, `insert` stores the new value under it. -/
theorem find_insert_of_find_none {m : StdMap α} {k : String} (v : α) (hwf : WF m)
    (h : m.find k = none) : (m.insert k v).find k = some v := by
  induction m with
  | nil => simp [insert, find]
  | cons hd t ih =>
    obtain ⟨k2, v2⟩ := hd
    obtain ⟨_, hwt⟩ := WF_cons.mp hwf
    unfold find at h
    split at h
    · cases h
    · rename_i hne
      unfold insert
      split
      · simp [find]
      · rw [if_neg (fun he => hne he.symm)]
        unfold find
        rw [if_neg hne]
        exact ih hwt h

/-- The lookup after `insert`: the value already stored under the key, else the new one. -/
theorem find_insert_self {m : StdMap α} (k : String) (v : α) (hwf : WF m) :
    (m.insert k v).find k = some ((m.find k).getD v) := by
  cases h : m.find k with
  | none => simpa using find_insert_of_find_none v hwf h
  | some v0 => rw [insert_of_find_some v hwf h, h]; rfl

end StdMap

/-! ## Registration -/

/-- C5: registration inserts and does not overwrite.  On a bridge whose sink maps
are well-formed, after two registrations under one converter name with the sinks
`pub1`, `rec1` and then `pub2`, `rec2`, the second registration has left `pub_map_`
and `rec_map_` as the first one made them, the lookup of the name returns the sink
registered first under it (the one already stored if there was one, otherwise
`pub1`, `rec1`, and then never a different second sink), and `converters_` has
grown by both converters.  The same holds for `registerPublisher` and
`registerRecorder`. -/
theorem register_twice_keeps_first (b : Bridge) (conv1 conv2 : Converter)
    (pub1 pub2 : Publisher) (rec1 rec2 : Recorder)
    (hpw : b.pub_map_.WF) (hrw : b.rec_map_.WF) (hname : conv2.name = conv1.name) :
    ((b.registerConverterPubRec conv1 pub1 rec1).registerConverterPubRec conv2 pub2 rec2).pub_map_
        = (b.registerConverterPubRec conv1 pub1 rec1).pub_map_ ∧
    ((b.registerConverterPubRec conv1 pub1 rec1).registerConverterPubRec conv2 pub2 rec2).rec_map_
        = (b.registerConverterPubRec conv1 pub1 rec1).rec_map_ ∧
    ((b.registerConverterPubRec conv1 pub1 rec1).registerConverterPubRec conv2 pub2
        rec2).pub_map_.find conv1.name = some ((b.pub_map_.find conv1.name).getD pub1) ∧
    ((b.registerConverterPubRec conv1 pub1 rec1).registerConverterPubRec conv2 pub2
        rec2).rec_map_.find conv1.name = some ((b.rec_map_.find conv1.name).getD rec1) ∧
    (b.pub_map_.find conv1.name = none →
      ((b.registerConverterPubRec conv1 pub1 rec1).registerConverterPubRec conv2 pub2
        rec2).pub_map_.find conv1.name = some pub1 ∧
      (pub2 ≠ pub1 →
        ((b.registerConverterPubRec conv1 pub1 rec1).registerConverterPubRec conv2 pub2
          rec2).pub_map_.find conv1.name ≠ some pub2)) ∧
    (b.rec_map_.find conv1.name = none →
      ((b.registerConverterPubRec conv1 pub1 rec1).registerConverterPubRec conv2 pub2
        rec2).rec_map_.find conv1.name = some rec1 ∧
      (rec2 ≠ rec1 →
        ((b.registerConverterPubRec conv1 pub1 rec1).registerConverterPubRec conv2 pub2
          rec2).rec_map_.find conv1.name ≠ some rec2)) ∧
    ((b.registerConverterPubRec conv1 pub1 rec1).registerConverterPubRec conv2 pub2
        rec2).converters_ = b.converters_ ++ [conv1, conv2] ∧
    ((b.registerPublisher conv1 pub1).registerPublisher conv2 pub2).pub_map_
        = (b.registerPublisher conv1 pub1).pub_map_ ∧
    ((b.registerPublisher conv1 pub1).registerPublisher conv2 pub2).pub_map_.find conv1.name
        = some ((b.pub_map_.find conv1.name).getD pub1) ∧
    ((b.registerPublisher conv1 pub1).registerPublisher conv2 pub2).converters_
        = b.converters_ ++ [conv1, conv2] ∧
    ((b.registerRecorder conv1 rec1).registerRecorder conv2 rec2).rec_map_
        = (b.registerRecorder conv1 rec1).rec_map_ ∧
    ((b.registerRecorder conv1 rec1).registerRecorder conv2 rec2).rec_map_.find conv1.name
        = some ((b.rec_map_.find conv1.name).getD rec1) ∧
    ((b.registerRecorder conv1 rec1).registerRecorder conv2 rec2).converters_
        = b.converters_ ++ [conv1, conv2] := by
  have hp1 := StdMap.find_insert_self conv1.name pub1 hpw
  have hr1 := StdMap.find_insert_self conv1.name rec1 hrw
  have hp2 : (b.pub_map_.insert conv1.name pub1).insert conv2.name pub2
      = b.pub_map_.insert conv1.name pub1 := by
    rw [hname]
    exact StdMap.insert_of_find_some pub2 (StdMap.WF_insert _ _ hpw) hp1
  have hr2 : (b.rec_map_.insert conv1.name rec1).insert conv2.name rec2
      = b.rec_map_.insert conv1.name rec1 := by
    rw [hname]
    exact StdMap.insert_of_find_some rec2 (StdMap.WF_insert _ _ hrw) hr1
  have hconv : (b.converters_ ++ [conv1]) ++ [conv2] = b.converters_ ++ [conv1, conv2] := by
    simp
  simp only [Bridge.registerConverterPubRec, Bridge.registerPublisher, Bridge.registerRecorder,
    Bridge.registerConverter]
  refine ⟨hp2, hr2, ?_, ?_, ?_, ?_, hconv, hp2, ?_, hconv, hr2, ?_, hconv⟩
  · rw [hp2]; exact hp1
  · rw [hr2]; exact hr1
  · intro hnone
    rw [hp2, hp1, hnone]
    exact ⟨rfl, fun hne heq => hne (Option.some.inj heq).symm⟩
  · intro hnone
    rw [hr2, hr1, hnone]
    exact ⟨rfl, fun hne heq => hne (Option.some.inj heq).symm⟩
  · rw [hp2]; exact hp1
  · rw [hr2]; exact hr1

/-- C5, instantiated: `exampleBridge` already has sinks for `"a"`; two converters
named `"b"` are registered with different sinks. -/
theorem register_twice_keeps_first_witness :
    exampleBridge.pub_map_.WF ∧ exampleBridge.rec_map_.WF ∧
    ((exampleBridge.registerConverterPubRec ⟨"b", 1⟩ ⟨"b", "t1", true, 0⟩
        ⟨"t1", false⟩).registerConverterPubRec ⟨"b", 3⟩ ⟨"b", "t2", true, 0⟩
        ⟨"t2", false⟩).pub_map_.find "b" = some ⟨"b", "t1", true, 0⟩ ∧
    ((exampleBridge.registerConverterPubRec ⟨"b", 1⟩ ⟨"b", "t1", true, 0⟩
        ⟨"t1", false⟩).registerConverterPubRec ⟨"b", 3⟩ ⟨"b", "t2", true, 0⟩
        ⟨"t2", false⟩).converters_ = exampleBridge.converters_ ++ [⟨"b", 1⟩, ⟨"b", 3⟩] :=
  have hpw : exampleBridge.pub_map_.WF := List.pairwise_singleton _ _
  have hrw : exampleBridge.rec_map_.WF := List.pairwise_singleton _ _
  have h := register_twice_keeps_first exampleBridge ⟨"b", 1⟩ ⟨"b", 3⟩ ⟨"b", "t1", true, 0⟩
    ⟨"b", "t2", true, 0⟩ ⟨"t1", false⟩ ⟨"t2", false⟩ hpw hrw rfl
  ⟨hpw, hrw, (h.2.2.2.2.1 rfl).1, h.2.2.2.2.2.2.1⟩

/-! ## Reconfiguration -/

theorem foldl_names (l : List Converter) (init : List String) :
    l.foldl (fun conv_list conv => conv_list ++ [conv.name]) init
      = init ++ l.map Converter.name := by
  induction l generalizing init with
  | nil => simp
  | cons c t ih => simp [ih]

theorem Bridge.getAvailableConverters_eq (b : Bridge) :
    b.getAvailableConverters = b.converters_.map Converter.name := by
  simp [Bridge.getAvailableConverters, foldl_names]

/-- A reconfiguration appends the default converters to `converters_`. -/
theorem Bridge.setMasterURINet_names (b : Bridge) (uri : String) (robot_type : Robot)
    (clock : Nat → Time) :
    (b.setMasterURINet uri robot_type clock).getAvailableConverters
      = b.getAvailableConverters ++ defaultConverterNames robot_type := by
  rw [Bridge.getAvailableConverters_eq, Bridge.getAvailableConverters_eq]
  have hc : (b.setMasterURINet uri robot_type clock).converters_ =
      ({ b with publish_enabled_ := false, nhPtr_ := some uri,
                publisherThread_ := true } : Bridge).converters_ ++
        (Bridge.new.registerDefaultConverter robot_type).converters_ := by
    cases robot_type <;>
      simp [Bridge.setMasterURINet, Bridge.startPublishing, Bridge.init, Bridge.stopPublishing,
        Bridge.registerDefaultSubscriber, Bridge.registerSubscriber,
        Bridge.registerDefaultConverter, Bridge.registerConverterPubRec,
        Bridge.registerConverter, Bridge.new, apply_ite Bridge.converters_]
  rw [hc]
  cases robot_type <;>
    simp [Bridge.registerDefaultConverter, Bridge.registerConverterPubRec,
      Bridge.registerConverter, Bridge.new, defaultConverterNames]

/-- C6 (the code at the failing input): on a new bridge the first reconfiguration
makes `getAvailableConverters` return the default names, and the second one makes
it return every default name twice: `registerDefaultConverter` pushes the default
converters on `converters_` again, which nothing has emptied. -/
theorem setMasterURINet_twice_repeats_names (uri uri2 : String) (robot_type : Robot)
    (clock clock2 : Nat → Time) :
    (Bridge.new.setMasterURINet uri robot_type clock).getAvailableConverters
      = defaultConverterNames robot_type ∧
    ((Bridge.new.setMasterURINet uri robot_type clock).setMasterURINet uri2 robot_type
        clock2).getAvailableConverters
      = defaultConverterNames robot_type ++ defaultConverterNames robot_type ∧
    ¬ ((Bridge.new.setMasterURINet uri robot_type clock).setMasterURINet uri2 robot_type
        clock2).getAvailableConverters.Nodup ∧
    ((Bridge.new.setMasterURINet uri robot_type clock).setMasterURINet uri2 robot_type
        clock2).getAvailableConverters
      ≠ (Bridge.new.setMasterURINet uri robot_type clock).getAvailableConverters := by
  have h0 : Bridge.new.getAvailableConverters = [] := rfl
  have h1 : (Bridge.new.setMasterURINet uri robot_type clock).getAvailableConverters
      = defaultConverterNames robot_type := by
    rw [Bridge.setMasterURINet_names, h0, List.nil_append]
  have h2 : ((Bridge.new.setMasterURINet uri robot_type clock).setMasterURINet uri2 robot_type
        clock2).getAvailableConverters
      = defaultConverterNames robot_type ++ defaultConverterNames robot_type := by
    rw [Bridge.setMasterURINet_names, h1]
  refine ⟨h1, h2, ?_, ?_⟩
  · rw [h2]
    cases robot_type <;> decide
  · rw [h2, h1]
    cases robot_type <;> decide

/-! ## The recording session -/

namespace StdMap

variable {α : Type}

theorem modify_of_find_none {m : StdMap α} {k : String} (f : α → α) (h : m.find k = none) :
    m.modify k f = m := by
  induction m with
  | nil => rfl
  | cons hd t ih =>
    obtain ⟨k2, v2⟩ := hd
    unfold find at h
    split at h
    · cases h
    · rename_i hne
      unfold modify
      rw [if_neg hne, ih h]

/-- In a well-formed map, writing through the iterator of `find` touches the entry
with that key and no other. -/
theorem modify_eq_map {m : StdMap α} (k : String) (f : α → α) (hwf : WF m) :
    m.modify k f = m.map (fun e => if e.1 = k then (e.1, f e.2) else e) := by
  induction m with
  | nil => rfl
  | cons hd t ih =>
    obtain ⟨k2, v2⟩ := hd
    obtain ⟨hlow, hwt⟩ := WF_cons.mp hwf
    unfold modify
    split
    · rename_i hk
      simp only [List.map_cons, hk, if_true]
      congr 1
      symm
      have hid : ∀ e ∈ t, (fun e : String × α => if e.1 = k then (e.1, f e.2) else e) e = id e := by
        intro e he
        have hlt : keyLt k e.1 := hk ▸ hlow e he
        have hne : ¬ e.1 = k := fun h => keyLt_irrefl k (h ▸ hlt)
        simp [hne]
      rw [List.map_congr_left hid, List.map_id]
    · rename_i hk
      simp only [List.map_cons, hk, if_false]
      rw [ih hwt]

theorem keys_map_values (m : StdMap α) (g : String × α → String × α)
    (hg : ∀ e, (g e).1 = e.1) : keys (m.map g) = keys m := by
  unfold keys
  rw [List.map_map]
  exact List.map_congr_left (fun e _ => hg e)

theorem WF_of_keys_eq {m m2 : StdMap α} (h : keys m2 = keys m) (hwf : WF m) : WF m2 := by
  have h1 : (keys m).Pairwise keyLt := by
    unfold keys; exact List.pairwise_map.mpr hwf
  rw [← h] at h1
  unfold keys at h1
  exact List.pairwise_map.mp h1

end StdMap

theorem subscribeFound_eq_modify (state : Bool) (m : StdMap Recorder) (name : String) :
    Bridge.subscribeFound state m name = m.modify name (fun r => r.subscribe state) := by
  unfold Bridge.subscribeFound
  cases h : m.find name with
  | none => simp [StdMap.modify_of_find_none _ h]
  | some r => rfl

/-- The loops of `startRecord`, `startRecordTopics` and `stopRecord`: on a well-formed
`rec_map_` the flag of an entry is written iff its key is among the names walked. -/
theorem foldl_subscribeFound (state : Bool) (names : List String) :
    ∀ m : StdMap Recorder, m.WF →
      names.foldl (Bridge.subscribeFound state) m
        = m.map (fun e => if e.1 ∈ names then (e.1, e.2.subscribe state) else e) := by
  induction names with
  | nil => intro m _; simp
  | cons n ns ih =>
    intro m hwf
    have hstep : Bridge.subscribeFound state m n
        = m.map (fun e => if e.1 = n then (e.1, e.2.subscribe state) else e) := by
      rw [subscribeFound_eq_modify, StdMap.modify_eq_map n _ hwf]
    have hwf2 : StdMap.WF (Bridge.subscribeFound state m n) := by
      refine StdMap.WF_of_keys_eq ?_ hwf
      rw [hstep]
      apply StdMap.keys_map_values
      intro e; split <;> rfl
    rw [List.foldl_cons, ih _ hwf2, hstep, List.map_map]
    apply List.map_congr_left
    intro e _
    simp only [Function.comp]
    by_cases h1 : e.1 = n
    · by_cases h2 : e.1 ∈ ns
      · simp [h1, h2, Recorder.subscribe]
      · have h3 : n ∉ ns := h1 ▸ h2
        simp [h1, h3]
    · by_cases h2 : e.1 ∈ ns
      · simp [h1, h2]
      · simp [h1, h2]

theorem foldl_subscribeFound_converters (state : Bool) (convs : List Converter)
    (m : StdMap Recorder) :
    convs.foldl (fun m conv => Bridge.subscribeFound state m conv.name) m
      = (convs.map Converter.name).foldl (Bridge.subscribeFound state) m := by
  rw [List.foldl_map]

theorem Bridge.startRecordTopics_rec_map (b : Bridge) (names : List String)
    (hwf : b.rec_map_.WF) :
    (b.startRecordTopics names).rec_map_
      = b.rec_map_.map (fun e => if e.1 ∈ names then (e.1, e.2.subscribe true) else e) := by
  have h := foldl_subscribeFound true names b.rec_map_ hwf
  simpa [Bridge.startRecordTopics] using h

/-- C7: `startRecordTopics( names )` on a bridge with a well-formed `rec_map_`, with
`record_enabled_` false and every recorder flag false, is a total function of the
state (no fault); afterwards `record_enabled_` is true, `rec_map_` has the same
keys, and the flag of an entry is true iff its key occurs in `names`.  A name
without an entry in `rec_map_` is skipped: with it or without it in the list, at
any position, the resulting `rec_map_` is the same.  The publish flag, the
converters, `pub_map_` and the queue are not touched. -/
theorem startRecordTopics_flags (b : Bridge) (names : List String)
    (hwf : b.rec_map_.WF) (_hoff : b.record_enabled_ = false)
    (hall : ∀ e ∈ b.rec_map_, e.2.isSubscribed = false) :
    (b.startRecordTopics names).record_enabled_ = true ∧
    (b.startRecordTopics names).rec_map_.keys = b.rec_map_.keys ∧
    (∀ e ∈ (b.startRecordTopics names).rec_map_, (e.2.isSubscribed = true ↔ e.1 ∈ names)) ∧
    (∀ pre post name, names = pre ++ name :: post → b.rec_map_.find name = none →
      (b.startRecordTopics names).rec_map_ = (b.startRecordTopics (pre ++ post)).rec_map_) ∧
    (b.startRecordTopics names).publish_enabled_ = b.publish_enabled_ ∧
    (b.startRecordTopics names).converters_ = b.converters_ ∧
    (b.startRecordTopics names).pub_map_ = b.pub_map_ ∧
    (b.startRecordTopics names).conv_queue_ = b.conv_queue_ := by
  refine ⟨rfl, ?_, ?_, ?_, rfl, rfl, rfl, rfl⟩
  · rw [Bridge.startRecordTopics_rec_map b names hwf]
    apply StdMap.keys_map_values
    intro e; split <;> rfl
  · intro e he
    rw [Bridge.startRecordTopics_rec_map b names hwf] at he
    obtain ⟨e0, he0, heq⟩ := List.mem_map.mp he
    have hoff0 := hall e0 he0
    by_cases hmem : e0.1 ∈ names
    · rw [if_pos hmem] at heq
      rw [← heq]
      simp [Recorder.subscribe, Recorder.isSubscribed, hmem]
    · rw [if_neg hmem] at heq
      rw [← heq]
      simp [hoff0, hmem]
  · intro pre post name hnames hnone
    rw [Bridge.startRecordTopics_rec_map b names hwf,
      Bridge.startRecordTopics_rec_map b (pre ++ post) hwf]
    apply List.map_congr_left
    intro e he
    have hne : e.1 ≠ name := by
      intro h
      have hfind := StdMap.find_of_mem hwf (show (e.1, e.2) ∈ b.rec_map_ from he)
      rw [h, hnone] at hfind
      cases hfind
    have hiff : e.1 ∈ names ↔ e.1 ∈ pre ++ post := by
      rw [hnames]
      simp [hne]
    by_cases hmem : e.1 ∈ names
    · rw [if_pos hmem, if_pos (hiff.mp hmem)]
    · rw [if_neg hmem, if_neg (fun h => hmem (hiff.mpr h))]

/-- C7, instantiated on `idleBridge` with the unknown name `"x"` before `"b"`. -/
theorem startRecordTopics_flags_witness :
    idleBridge.rec_map_.WF ∧ idleBridge.record_enabled_ = false ∧
    (∀ e ∈ idleBridge.rec_map_, e.2.isSubscribed = false) ∧
    (idleBridge.startRecordTopics ["x", "b"]).record_enabled_ = true ∧
    (∀ e ∈ (idleBridge.startRecordTopics ["x", "b"]).rec_map_,
      (e.2.isSubscribed = true ↔ e.1 ∈ ["x", "b"])) :=
  have hwf : idleBridge.rec_map_.WF := by
    unfold StdMap.WF idleBridge
    decide
  have hall : ∀ e ∈ idleBridge.rec_map_, e.2.isSubscribed = false := by
    intro e he
    simp only [idleBridge, List.mem_cons, List.mem_singleton, List.not_mem_nil, or_false] at he
    rcases he with h | h <;> rw [h] <;> rfl
  have h := startRecordTopics_flags idleBridge ["x", "b"] hwf rfl hall
  ⟨hwf, rfl, hall, h.1, h.2.2.1⟩

/-! ## The invariant of the reachable states -/

theorem StdMap.keys_insert_subset {α : Type} {m : StdMap α} {k : String} {v : α} {e : String × α}
    (h : e ∈ m.insert k v) : e.1 = k ∨ e ∈ m := by
  rcases StdMap.mem_insert h with h1 | h1
  · exact Or.inl (by rw [h1])
  · exact Or.inr h1

theorem Bridge.Inv.new : Bridge.new.Inv :=
  { pub_wf := StdMap.WF_nil
    rec_wf := StdMap.WF_nil
    rec_keys := by intro e he; simp [Bridge.new] at he
    queue_valid := by intro e he; simp [Bridge.new] at he }

/-- A step that keeps `pub_map_`, the keys of `rec_map_`, the converters and the
queue keeps the invariant. -/
theorem Bridge.Inv.of_same {b b2 : Bridge} (h : b.Inv) (hp : b2.pub_map_ = b.pub_map_)
    (hr : b2.rec_map_.keys = b.rec_map_.keys) (hc : b2.converters_ = b.converters_)
    (hq : b2.conv_queue_ = b.conv_queue_) : b2.Inv :=
  { pub_wf := hp ▸ h.pub_wf
    rec_wf := StdMap.WF_of_keys_eq hr h.rec_wf
    rec_keys := by
      intro e he
      have hk : e.1 ∈ b2.rec_map_.keys := List.mem_map.mpr ⟨e, he, rfl⟩
      rw [hr] at hk
      obtain ⟨e0, he0, hk0⟩ := List.mem_map.mp hk
      obtain ⟨conv, hconv, hname⟩ := h.rec_keys e0 he0
      exact ⟨conv, hc ▸ hconv, hname.trans hk0⟩
    queue_valid := by
      intro e he
      rw [hc]
      exact h.queue_valid e (hq ▸ he) }

theorem Bridge.Inv.registerConverter {b : Bridge} (conv : Converter) (h : b.Inv) :
    (b.registerConverter conv).Inv :=
  { pub_wf := h.pub_wf
    rec_wf := h.rec_wf
    rec_keys := by
      intro e he
      obtain ⟨c, hc, hname⟩ := h.rec_keys e he
      exact ⟨c, List.mem_append_left _ hc, hname⟩
    queue_valid := by
      intro e he
      have := h.queue_valid e he
      simp only [Bridge.registerConverter, List.length_append, List.length_singleton]
      omega }

theorem Bridge.Inv.insert_pub {b : Bridge} (k : String) (pub : Publisher) (h : b.Inv) :
    Bridge.Inv { b with pub_map_ := b.pub_map_.insert k pub } :=
  { pub_wf := StdMap.WF_insert k pub h.pub_wf
    rec_wf := h.rec_wf
    rec_keys := h.rec_keys
    queue_valid := h.queue_valid }

theorem Bridge.Inv.insert_rec {b : Bridge} (conv : Converter) (r : Recorder) (h : b.Inv)
    (hmem : conv ∈ b.converters_) :
    Bridge.Inv { b with rec_map_ := b.rec_map_.insert conv.name r } :=
  { pub_wf := h.pub_wf
    rec_wf := StdMap.WF_insert conv.name r h.rec_wf
    rec_keys := by
      intro e he
      rcases StdMap.keys_insert_subset he with h1 | h1
      · exact ⟨conv, hmem, h1.symm⟩
      · exact h.rec_keys e h1
    queue_valid := h.queue_valid }

theorem Bridge.Inv.registerConverterPubRec {b : Bridge} (conv : Converter) (pub : Publisher)
    (r : Recorder) (h : b.Inv) : (b.registerConverterPubRec conv pub r).Inv :=
  Bridge.Inv.insert_rec conv r
    (Bridge.Inv.insert_pub conv.name pub (Bridge.Inv.registerConverter conv h))
    (by simp [Bridge.registerConverter])

theorem Bridge.Inv.registerPublisher {b : Bridge} (conv : Converter) (pub : Publisher)
    (h : b.Inv) : (b.registerPublisher conv pub).Inv :=
  Bridge.Inv.insert_pub conv.name pub (Bridge.Inv.registerConverter conv h)

theorem Bridge.Inv.registerRecorder {b : Bridge} (conv : Converter) (r : Recorder)
    (h : b.Inv) : (b.registerRecorder conv r).Inv :=
  Bridge.Inv.insert_rec conv r (Bridge.Inv.registerConverter conv h)
    (by simp [Bridge.registerConverter])

theorem Bridge.Inv.registerSubscriber {b : Bridge} (sub : Subscriber) (h : b.Inv) :
    (b.registerSubscriber sub).Inv := by
  unfold Bridge.registerSubscriber
  split
  · exact h
  · exact Bridge.Inv.of_same h rfl rfl rfl rfl

theorem Bridge.Inv.registerDefaultSubscriber {b : Bridge} (h : b.Inv) :
    b.registerDefaultSubscriber.Inv := by
  unfold Bridge.registerDefaultSubscriber
  split
  · exact h
  · exact Bridge.Inv.registerSubscriber _ (Bridge.Inv.registerSubscriber _ h)

theorem Bridge.Inv.registerDefaultConverter {b : Bridge} (robot_type : Robot) (h : b.Inv) :
    (b.registerDefaultConverter robot_type).Inv := by
  cases robot_type
  · simp only [Bridge.registerDefaultConverter, if_true]
    repeat apply Bridge.Inv.registerConverterPubRec
    exact h
  · simp only [Bridge.registerDefaultConverter, reduceCtorEq, if_false]
    repeat apply Bridge.Inv.registerConverterPubRec
    exact h

theorem initQueue_index (clock : Nat → Time) (l : List Converter) :
    ∀ (i : Nat) (q : ConvQueue) (e : ScheduledConverter), e ∈ Bridge.initQueue clock l i q →
      e ∈ q ∨ (i ≤ e.conv_index_ ∧ e.conv_index_ < i + l.length) := by
  induction l with
  | nil => intro i q e he; exact Or.inl he
  | cons c rest ih =>
    intro i q e he
    unfold Bridge.initQueue at he
    rcases ih (i + 1) _ e he with h1 | ⟨h1, h2⟩
    · rcases List.mem_cons.mp ((ConvQueue.push_perm _ q).subset h1) with h3 | h3
      · right
        rw [h3]
        simp
      · exact Or.inl h3
    · right
      simp only [List.length_cons]
      omega

theorem Bridge.Inv.init {b : Bridge} (clock : Nat → Time) (h : b.Inv) : (b.init clock).Inv :=
  { pub_wf := h.pub_wf
    rec_wf := h.rec_wf
    rec_keys := h.rec_keys
    queue_valid := by
      intro e he
      rcases initQueue_index clock b.converters_ 0 [] e he with h1 | ⟨_, h2⟩
      · simp at h1
      · simpa using h2 }

theorem Bridge.Inv.setMasterURINet {b : Bridge} (uri : String) (robot_type : Robot)
    (clock : Nat → Time) (h : b.Inv) : (b.setMasterURINet uri robot_type clock).Inv := by
  unfold Bridge.setMasterURINet
  refine Bridge.Inv.of_same (Bridge.Inv.init clock (Bridge.Inv.registerDefaultSubscriber
    (Bridge.Inv.registerDefaultConverter robot_type ?_))) rfl rfl rfl rfl
  split
  · exact Bridge.Inv.of_same h rfl rfl rfl rfl
  · exact Bridge.Inv.of_same h rfl rfl rfl rfl

theorem Bridge.Inv.pass {b : Bridge} (actions : List MessageAction) (now : Time)
    (r : LoopResult) (h : b.Inv) (hr : b.rosLoopBody actions now = some r) : r.bridge.Inv := by
  obtain ⟨r2, _, hr2, _, _, hvr, _⟩ :=
    Bridge.EqUpToPublish.pass_related b b (Bridge.EqUpToPublish.refl b) h.queue_valid
      actions actions now now
  have hrr : r2 = r := Option.some.inj (hr2.symm.trans hr)
  subst hrr
  obtain ⟨r3, hr3, hcase⟩ := Bridge.rosLoopBody_step b actions now h.queue_valid
  have hrr : r3 = r2 := Option.some.inj (hr3.symm.trans hr)
  subst hrr
  rcases hcase with ⟨_, hb, _⟩ | ⟨top, rest, conv, _, _, _, hb, _⟩
  · rw [hb]; exact h
  · exact { pub_wf := by rw [hb]; exact h.pub_wf
            rec_wf := by rw [hb]; exact h.rec_wf
            rec_keys := by rw [hb]; exact h.rec_keys
            queue_valid := hvr }

theorem Bridge.startRecordTopics_keys (b : Bridge) (names : List String) (hwf : b.rec_map_.WF) :
    (b.startRecordTopics names).rec_map_.keys = b.rec_map_.keys := by
  rw [Bridge.startRecordTopics_rec_map b names hwf]
  apply StdMap.keys_map_values
  intro e; split <;> rfl

/-- On a reachable state the loop of `startRecord` / `stopRecord` over the converters
reaches every entry of `rec_map_`. -/
theorem Bridge.foldl_converters_rec_map (state : Bool) (b : Bridge) (h : b.Inv) :
    b.converters_.foldl (fun m conv => Bridge.subscribeFound state m conv.name) b.rec_map_
      = b.rec_map_.map (fun e => (e.1, e.2.subscribe state)) := by
  rw [foldl_subscribeFound_converters, foldl_subscribeFound state _ _ h.rec_wf]
  apply List.map_congr_left
  intro e he
  obtain ⟨conv, hconv, hname⟩ := h.rec_keys e he
  have hmem : e.1 ∈ b.converters_.map Converter.name :=
    List.mem_map.mpr ⟨conv, hconv, hname⟩
  rw [if_pos hmem]

theorem Bridge.startRecord_rec_map (b : Bridge) (h : b.Inv) :
    b.startRecord.rec_map_ = b.rec_map_.map (fun e => (e.1, e.2.subscribe true)) :=
  Bridge.foldl_converters_rec_map true b h

theorem Bridge.stopRecord_rec_map (b : Bridge) (h : b.Inv) :
    b.stopRecord.rec_map_ = b.rec_map_.map (fun e => (e.1, e.2.subscribe false)) :=
  Bridge.foldl_converters_rec_map false b h

theorem Bridge.Inv.startRecord {b : Bridge} (h : b.Inv) : b.startRecord.Inv := by
  refine Bridge.Inv.of_same h rfl ?_ rfl rfl
  rw [Bridge.startRecord_rec_map b h]
  exact StdMap.keys_map_values _ _ (fun _ => rfl)

theorem Bridge.Inv.stopRecord {b : Bridge} (h : b.Inv) : b.stopRecord.Inv := by
  refine Bridge.Inv.of_same h rfl ?_ rfl rfl
  rw [Bridge.stopRecord_rec_map b h]
  exact StdMap.keys_map_values _ _ (fun _ => rfl)

theorem Bridge.Inv.startRecordTopics {b : Bridge} (names : List String) (h : b.Inv) :
    (b.startRecordTopics names).Inv :=
  Bridge.Inv.of_same h rfl (Bridge.startRecordTopics_keys b names h.rec_wf) rfl rfl

/-- Every reachable state satisfies the invariant. -/
theorem Bridge.Reachable.inv {b : Bridge} (h : b.Reachable) : b.Inv := by
  induction h with
  | new => exact Bridge.Inv.new
  | registerConverter b conv _ ih => exact Bridge.Inv.registerConverter conv ih
  | registerConverterPubRec b conv pub r _ ih =>
    exact Bridge.Inv.registerConverterPubRec conv pub r ih
  | registerPublisher b conv pub _ ih => exact Bridge.Inv.registerPublisher conv pub ih
  | registerRecorder b conv r _ ih => exact Bridge.Inv.registerRecorder conv r ih
  | registerSubscriber b sub _ ih => exact Bridge.Inv.registerSubscriber sub ih
  | setMasterURINet b uri robot_type clock _ ih =>
    exact Bridge.Inv.setMasterURINet uri robot_type clock ih
  | init b clock _ ih => exact Bridge.Inv.init clock ih
  | startPublishing b _ ih => exact Bridge.Inv.of_same ih rfl rfl rfl rfl
  | stopPublishing b _ ih => exact Bridge.Inv.of_same ih rfl rfl rfl rfl
  | startRecord b _ ih => exact Bridge.Inv.startRecord ih
  | startRecordTopics b names _ ih => exact Bridge.Inv.startRecordTopics names ih
  | stopRecord b _ ih => exact Bridge.Inv.stopRecord ih
  | pass b actions now r _ hr ih => exact Bridge.Inv.pass actions now r ih hr

/-- With `record_enabled_` false a pass returns an action list without `RECORD`. -/
theorem Bridge.rosLoopBody_no_record (b : Bridge) (hv : b.QueueValid)
    (hre : b.record_enabled_ = false) (prev : List MessageAction) (now : Time) :
    ∃ r, b.rosLoopBody prev now = some r ∧ RECORD ∉ r.actions := by
  obtain ⟨r, hr, hcase⟩ := Bridge.rosLoopBody_step b prev now hv
  refine ⟨r, hr, ?_⟩
  rcases hcase with ⟨hq, _, _⟩ | ⟨top, rest, conv, hq, hconv, _, _⟩
  · have : b.rosLoopBody prev now = some
        { bridge := b, actions := [], callAll := [], conv_index := none, slept := 10 ^ 9,
          thrown := false } := by
      simp [Bridge.rosLoopBody, hq, ConvQueue.top, clear]
    rw [this] at hr
    rw [← Option.some.inj hr]
    simp
  · have htop : b.conv_queue_.top = some top := by simp [hq, ConvQueue.top]
    rw [Bridge.rosLoopBody_eq b prev now top conv htop hconv] at hr
    rw [← Option.some.inj hr]
    simp only [hre, Bool.false_and]
    cases (b.publish_enabled_ && (match b.pub_map_.find conv.name with
                                   | some pub => pub.isSubscribed
                                   | none => false)) <;> simp

/-- C8: on every reachable bridge state, `stopRecord` leaves `record_enabled_` false
and the flag of every recorder in `rec_map_` false, whatever they were before, and
keeps the keys of `rec_map_`; a second `stopRecord` changes nothing, and the next
pass of the `rosLoop` body returns an action list without `RECORD`. -/
theorem stopRecord_clears (b : Bridge) (hreach : b.Reachable) :
    b.stopRecord.record_enabled_ = false ∧
    (∀ e ∈ b.stopRecord.rec_map_, e.2.isSubscribed = false) ∧
    b.stopRecord.rec_map_.keys = b.rec_map_.keys ∧
    b.stopRecord.stopRecord = b.stopRecord ∧
    (∀ prev now, ∃ r, b.stopRecord.rosLoopBody prev now = some r ∧ RECORD ∉ r.actions) := by
  have hinv := Bridge.Reachable.inv hreach
  have hinv2 := Bridge.Inv.stopRecord hinv
  have hmap := Bridge.stopRecord_rec_map b hinv
  refine ⟨rfl, ?_, ?_, ?_, ?_⟩
  · intro e he
    rw [hmap] at he
    obtain ⟨e0, _, heq⟩ := List.mem_map.mp he
    rw [← heq]
    rfl
  · rw [hmap]
    exact StdMap.keys_map_values _ _ (fun _ => rfl)
  · have h1 : b.stopRecord.stopRecord
        = { b.stopRecord with rec_map_ := b.stopRecord.stopRecord.rec_map_ } := rfl
    have h2 : b.stopRecord.stopRecord.rec_map_ = b.stopRecord.rec_map_ := by
      rw [Bridge.stopRecord_rec_map b.stopRecord hinv2, hmap, List.map_map]
      apply List.map_congr_left
      intro e _
      rfl
    rw [h1, h2]
  · intro prev now
    exact Bridge.rosLoopBody_no_record b.stopRecord hinv2.queue_valid rfl prev now

/-- C8, instantiated: `registeredBridge` after `startRecord`, so both flags are set
when `stopRecord` is called. -/
theorem stopRecord_clears_witness :
    registeredBridge.startRecord.Reachable ∧
    registeredBridge.startRecord.record_enabled_ = true ∧
    registeredBridge.startRecord.stopRecord.record_enabled_ = false ∧
    (∀ e ∈ registeredBridge.startRecord.stopRecord.rec_map_, e.2.isSubscribed = false) ∧
    registeredBridge.startRecord.stopRecord.stopRecord = registeredBridge.startRecord.stopRecord :=
  have hreach : registeredBridge.startRecord.Reachable :=
    Bridge.Reachable.startRecord _
      (Bridge.Reachable.registerRecorder _ _ _
        (Bridge.Reachable.registerConverterPubRec _ _ _ _ Bridge.Reachable.new))
  have h := stopRecord_clears registeredBridge.startRecord hreach
  ⟨hreach, rfl, h.1, h.2.1, h.2.2.2.1⟩

/-- C9: on every reachable bridge state, `startRecord` leaves `record_enabled_` true
and the flag of every recorder in `rec_map_` true, keeps the keys of `rec_map_`, and
leaves the publish flag, the converters, `pub_map_` and the queue as they are. -/
theorem startRecord_includes_all (b : Bridge) (hreach : b.Reachable) :
    b.startRecord.record_enabled_ = true ∧
    (∀ e ∈ b.startRecord.rec_map_, e.2.isSubscribed = true) ∧
    b.startRecord.rec_map_.keys = b.rec_map_.keys ∧
    b.startRecord.publish_enabled_ = b.publish_enabled_ ∧
    b.startRecord.converters_ = b.converters_ ∧
    b.startRecord.pub_map_ = b.pub_map_ ∧
    b.startRecord.conv_queue_ = b.conv_queue_ := by
  have hinv := Bridge.Reachable.inv hreach
  have hmap := Bridge.startRecord_rec_map b hinv
  refine ⟨rfl, ?_, ?_, rfl, rfl, rfl, rfl⟩
  · intro e he
    rw [hmap] at he
    obtain ⟨e0, _, heq⟩ := List.mem_map.mp he
    rw [← heq]
    rfl
  · rw [hmap]
    exact StdMap.keys_map_values _ _ (fun _ => rfl)

/-- C9, instantiated on `registeredBridge`, where no flag is set yet. -/
theorem startRecord_includes_all_witness :
    registeredBridge.Reachable ∧
    registeredBridge.rec_map_.keys = ["a", "b"] ∧
    registeredBridge.startRecord.record_enabled_ = true ∧
    (∀ e ∈ registeredBridge.startRecord.rec_map_, e.2.isSubscribed = true) ∧
    registeredBridge.startRecord.rec_map_.keys = registeredBridge.rec_map_.keys :=
  have hreach : registeredBridge.Reachable :=
    Bridge.Reachable.registerRecorder _ _ _
      (Bridge.Reachable.registerConverterPubRec _ _ _ _ Bridge.Reachable.new)
  have h := startRecord_includes_all registeredBridge hreach
  ⟨hreach, by decide, h.1, h.2.1, h.2.2.1⟩

/-! ## The subscribed publishers -/

theorem foldl_subscribed (m : StdMap Publisher) (init : List String) :
    m.foldl (fun publisher entry =>
        if entry.2.isSubscribed then publisher ++ [entry.2.topic] else publisher) init
      = init ++ (m.filter (fun e => e.2.isSubscribed)).map (fun e => e.2.topic) := by
  induction m generalizing init with
  | nil => simp
  | cons hd t ih =>
    rw [List.foldl_cons, ih]
    cases h : hd.2.isSubscribed <;> simp [h, List.filter_cons]

/-- C10: `getSubscribedPublishers` returns the topics of the entries of `pub_map_`
whose publisher reports `isSubscribed`, one element per such entry and in the
order of the map, which is the order of the keys; an entry whose publisher is not
initialized is not among them, and the result is the same for either value of
`publish_enabled_`. -/
theorem getSubscribedPublishers_lists (b : Bridge) (hwf : b.pub_map_.WF) :
    b.getSubscribedPublishers
      = (b.pub_map_.filter (fun e => e.2.isSubscribed)).map (fun e => e.2.topic) ∧
    ((b.pub_map_.filter (fun e => e.2.isSubscribed)).map Prod.fst).Pairwise keyLt ∧
    b.getSubscribedPublishers.length = b.pub_map_.countP (fun e => e.2.isSubscribed) ∧
    (∀ topic, topic ∈ b.getSubscribedPublishers ↔
      ∃ e ∈ b.pub_map_, e.2.isSubscribed = true ∧ e.2.topic = topic) ∧
    (∀ e ∈ b.pub_map_, e.2.is_initialized_ = false →
      e ∉ b.pub_map_.filter (fun e => e.2.isSubscribed)) ∧
    (∀ flag, Bridge.getSubscribedPublishers { b with publish_enabled_ := flag }
      = b.getSubscribedPublishers) := by
  have heq : b.getSubscribedPublishers
      = (b.pub_map_.filter (fun e => e.2.isSubscribed)).map (fun e => e.2.topic) := by
    simp [Bridge.getSubscribedPublishers, foldl_subscribed]
  refine ⟨heq, ?_, ?_, ?_, ?_, ?_⟩
  · have hsub : List.Sublist (b.pub_map_.filter (fun e => e.2.isSubscribed)) b.pub_map_ :=
      List.filter_sublist _
    exact List.pairwise_map.mpr (List.Pairwise.sublist hsub hwf)
  · rw [heq, List.length_map, List.countP_eq_length_filter]
  · intro topic
    rw [heq]
    simp only [List.mem_map, List.mem_filter]
    constructor
    · rintro ⟨e, ⟨he, hs⟩, ht⟩
      exact ⟨e, he, hs, ht⟩
    · rintro ⟨e, he, hs, ht⟩
      exact ⟨e, ⟨he, hs⟩, ht⟩
  · intro e _ hinit hmem
    have hs := (List.mem_filter.mp hmem).2
    rw [Publisher.isSubscribed_of_not_initialized e.2 hinit] at hs
    cases hs
  · intro flag
    rfl

/-- C10, instantiated on `listenerBridge`. -/
theorem getSubscribedPublishers_lists_witness :
    listenerBridge.pub_map_.WF ∧
    listenerBridge.publish_enabled_ = false ∧
    listenerBridge.getSubscribedPublishers = ["topic_a", "topic_c"] ∧
    ((listenerBridge.pub_map_.filter (fun e => e.2.isSubscribed)).map Prod.fst).Pairwise keyLt :=
  have hwf : listenerBridge.pub_map_.WF := by
    unfold StdMap.WF listenerBridge
    decide
  have h := getSubscribedPublishers_lists listenerBridge hwf
  ⟨hwf, rfl, h.1.trans (by decide), h.2.1⟩

/-! ## A remark on `stopService` -/

/-- The reachability premise of the record theorems is needed: `stopService` empties
`converters_` and keeps `rec_map_`, so a `stopRecord` after it walks no converter
and the flags set by `startRecord` stay set. -/
theorem stopRecord_after_stopService_keeps_flags :
    registeredBridge.startRecord.stopService.stopRecord.rec_map_
      = [("a", ⟨"topic_a", true⟩), ("b", ⟨"topic_b", true⟩)] := by
  decide

/-! ## The timer-queue invariant -/

/-- The loop of `init` adds one entry `(clock i, i)` for every position of the list
it walks, counted from `i`. -/
theorem initQueue_perm (clock : Nat → Time) (l : List Converter) :
    ∀ (i : Nat) (q : ConvQueue),
      List.Perm (Bridge.initQueue clock l i q)
        (q ++ (List.range' i l.length).map (fun j => (⟨clock j, j⟩ : ScheduledConverter))) := by
  induction l with
  | nil => intro i q; simp [Bridge.initQueue]
  | cons c rest ih =>
    intro i q
    unfold Bridge.initQueue
    refine (ih (i + 1) _).trans ?_
    rw [List.length_cons, List.range'_succ, List.map_cons]
    refine ((ConvQueue.push_perm _ q).append_right _).trans ?_
    exact List.perm_middle.symm

/-- The queue built by `init` holds the entries `(clock i, i)` for `i` below the
number of converters, each once. -/
theorem Bridge.init_queue_perm (b : Bridge) (clock : Nat → Time) :
    List.Perm (b.init clock).conv_queue_
      ((List.range b.converters_.length).map (fun i => (⟨clock i, i⟩ : ScheduledConverter))) := by
  have h := initQueue_perm clock b.converters_ 0 []
  rw [List.nil_append, ← List.range_eq_range'] at h
  exact h

theorem Bridge.init_indices_perm (b : Bridge) (clock : Nat → Time) :
    List.Perm ((b.init clock).conv_queue_.map ScheduledConverter.conv_index_)
      (List.range b.converters_.length) := by
  have h := (Bridge.init_queue_perm b clock).map ScheduledConverter.conv_index_
  rw [List.map_map] at h
  have hid : (List.range b.converters_.length).map
      (ScheduledConverter.conv_index_ ∘ fun i => (⟨clock i, i⟩ : ScheduledConverter))
        = List.range b.converters_.length := by
    have : (ScheduledConverter.conv_index_ ∘ fun i => (⟨clock i, i⟩ : ScheduledConverter))
        = id := rfl
    rw [this, List.map_id]
  rw [hid] at h
  exact h

theorem Bridge.init_queue_nodup (b : Bridge) (clock : Nat → Time) :
    (b.init clock).QueueNodup :=
  (Bridge.init_indices_perm b clock).nodup_iff.mpr (List.nodup_range _)

theorem Bridge.init_queue_valid (b : Bridge) (clock : Nat → Time) :
    (b.init clock).QueueValid := by
  intro e he
  have hmem : e.conv_index_ ∈ (b.init clock).conv_queue_.map ScheduledConverter.conv_index_ :=
    List.mem_map.mpr ⟨e, he, rfl⟩
  have h2 := (Bridge.init_indices_perm b clock).subset hmem
  exact List.mem_range.mp h2

/-- A step that keeps the queue and does not shrink `converters_` keeps both queue
invariants. -/
theorem Bridge.queue_inv_of_same {b b2 : Bridge} (hq : b2.conv_queue_ = b.conv_queue_)
    (hc : b.converters_.length ≤ b2.converters_.length)
    (h : b.QueueValid ∧ b.QueueNodup) : b2.QueueValid ∧ b2.QueueNodup := by
  refine ⟨?_, ?_⟩
  · intro e he
    exact Nat.lt_of_lt_of_le (h.1 e (hq ▸ he)) hc
  · unfold Bridge.QueueNodup
    rw [hq]
    exact h.2

theorem Bridge.registerConverter_length (b : Bridge) (conv : Converter) :
    b.converters_.length ≤ (b.registerConverter conv).converters_.length := by
  simp [Bridge.registerConverter]

/-- Every state reachable from a state with a valid, duplicate-free queue has a
valid, duplicate-free queue and at least as many converters. -/
theorem Bridge.ReachableFrom.queue_inv {b0 b : Bridge} (h : Bridge.ReachableFrom b0 b)
    (h0 : b0.QueueValid ∧ b0.QueueNodup) :
    (b.QueueValid ∧ b.QueueNodup) ∧ b0.converters_.length ≤ b.converters_.length := by
  induction h with
  | start => exact ⟨h0, Nat.le_refl _⟩
  | pass b actions now r _ hr ih =>
    obtain ⟨hc, hv, hn⟩ := Bridge.rosLoopBody_preserves b actions now ih.1.1 ih.1.2 r hr
    exact ⟨⟨hv, hn⟩, by rw [hc]; exact ih.2⟩
  | registerConverter b conv _ ih =>
    exact ⟨@Bridge.queue_inv_of_same b _ rfl (Bridge.registerConverter_length b conv) ih.1,
      Nat.le_trans ih.2 (Bridge.registerConverter_length b conv)⟩
  | registerConverterPubRec b conv pub r _ ih =>
    exact ⟨@Bridge.queue_inv_of_same b _ rfl (Bridge.registerConverter_length b conv) ih.1,
      Nat.le_trans ih.2 (Bridge.registerConverter_length b conv)⟩
  | registerPublisher b conv pub _ ih =>
    exact ⟨@Bridge.queue_inv_of_same b _ rfl (Bridge.registerConverter_length b conv) ih.1,
      Nat.le_trans ih.2 (Bridge.registerConverter_length b conv)⟩
  | registerRecorder b conv r _ ih =>
    exact ⟨@Bridge.queue_inv_of_same b _ rfl (Bridge.registerConverter_length b conv) ih.1,
      Nat.le_trans ih.2 (Bridge.registerConverter_length b conv)⟩
  | startPublishing b _ ih => exact ⟨Bridge.queue_inv_of_same rfl (Nat.le_refl _) ih.1, ih.2⟩
  | stopPublishing b _ ih => exact ⟨Bridge.queue_inv_of_same rfl (Nat.le_refl _) ih.1, ih.2⟩
  | startRecord b _ ih => exact ⟨Bridge.queue_inv_of_same rfl (Nat.le_refl _) ih.1, ih.2⟩
  | startRecordTopics b names _ ih =>
    exact ⟨Bridge.queue_inv_of_same rfl (Nat.le_refl _) ih.1, ih.2⟩
  | stopRecord b _ ih => exact ⟨Bridge.queue_inv_of_same rfl (Nat.le_refl _) ih.1, ih.2⟩

/-- C11: `init` builds a queue that holds exactly the entries `(clock i, i)` for the
indices `i` of the registered converters, one for each index `0 .. n-1`.  In every
state reachable from the state after `init` by passes of the `rosLoop` body,
registrations, publish toggles and the record calls, no converter index is queued
twice and every queued index is below the number of converters, so every pass
returns (the read `converters_[conv_index]` stays inside the vector) and the index
it handles is one of a registered converter. -/
theorem init_queue_invariant (b : Bridge) (clock : Nat → Time) :
    List.Perm (b.init clock).conv_queue_
      ((List.range b.converters_.length).map (fun i => (⟨clock i, i⟩ : ScheduledConverter))) ∧
    List.Perm ((b.init clock).conv_queue_.map ScheduledConverter.conv_index_)
      (List.range b.converters_.length) ∧
    (b.init clock).conv_queue_.length = b.converters_.length ∧
    (b.init clock).converters_ = b.converters_ ∧
    ∀ b2, Bridge.ReachableFrom (b.init clock) b2 →
      b2.QueueNodup ∧ b2.QueueValid ∧
      (∀ i, (b2.conv_queue_.filter (fun e => decide (e.conv_index_ = i))).length ≤ 1) ∧
      (∀ e ∈ b2.conv_queue_, e.conv_index_ < b2.converters_.length) ∧
      (∀ prev now, ∃ r, b2.rosLoopBody prev now = some r ∧
        ∀ i, r.conv_index = some i → ∃ conv, b2.converters_[i]? = some conv) := by
  refine ⟨Bridge.init_queue_perm b clock, Bridge.init_indices_perm b clock, ?_, rfl, ?_⟩
  · have h := (Bridge.init_queue_perm b clock).length_eq
    simpa using h
  · intro b2 hreach
    obtain ⟨⟨hv, hn⟩, _⟩ := Bridge.ReachableFrom.queue_inv hreach
      ⟨Bridge.init_queue_valid b clock, Bridge.init_queue_nodup b clock⟩
    refine ⟨hn, hv, ?_, hv, ?_⟩
    · intro i
      have hcount : (b2.conv_queue_.map ScheduledConverter.conv_index_).count i ≤ 1 :=
        List.nodup_iff_count_le_one.mp hn i
      rw [List.count_eq_countP, List.countP_map, List.countP_eq_length_filter] at hcount
      have hfun : ((fun x => x == i) ∘ ScheduledConverter.conv_index_)
          = (fun e : ScheduledConverter => decide (e.conv_index_ = i)) := by
        funext e
        rw [Bool.eq_iff_iff]
        simp
      rw [hfun] at hcount
      exact hcount
    · intro prev now
      obtain ⟨r, hr, hcase⟩ := Bridge.rosLoopBody_step b2 prev now hv
      refine ⟨r, hr, ?_⟩
      intro i hi
      rcases hcase with ⟨_, _, hnone, _⟩ | ⟨top, rest, conv, _, hconv, hidx, _⟩
      · rw [hnone] at hi; cases hi
      · rw [hidx] at hi
        have : top.conv_index_ = i := Option.some.inj hi
        exact ⟨conv, this ▸ hconv⟩

/-- C11, instantiated: `registeredBridge` after `init`, then a registration and a
publish toggle. -/
theorem init_queue_invariant_witness :
    (registeredBridge.init (fun i => i)).conv_queue_.length
      = registeredBridge.converters_.length ∧
    Bridge.ReachableFrom (registeredBridge.init (fun i => i))
      ((registeredBridge.init (fun i => i)).registerConverter ⟨"c", 5⟩).stopPublishing ∧
    Bridge.QueueNodup
      ((registeredBridge.init (fun i => i)).registerConverter ⟨"c", 5⟩).stopPublishing ∧
    Bridge.QueueValid
      ((registeredBridge.init (fun i => i)).registerConverter ⟨"c", 5⟩).stopPublishing :=
  have hreach : Bridge.ReachableFrom (registeredBridge.init (fun i => i))
      ((registeredBridge.init (fun i => i)).registerConverter ⟨"c", 5⟩).stopPublishing :=
    Bridge.ReachableFrom.stopPublishing _
      (Bridge.ReachableFrom.registerConverter _ _ Bridge.ReachableFrom.start)
  have h := init_queue_invariant registeredBridge (fun i => i)
  ⟨h.2.2.1, hreach, (h.2.2.2.2 _ hreach).1, (h.2.2.2.2 _ hreach).2.1⟩

/-- The states reachable from the constructor, reconfiguration and `init` included,
never queue a converter index twice. -/
theorem Bridge.Reachable.queue_nodup {b : Bridge} (h : b.Reachable) : b.QueueNodup := by
  induction h with
  | new => exact List.nodup_nil
  | registerConverter b conv _ ih => exact ih
  | registerConverterPubRec b conv pub r _ ih => exact ih
  | registerPublisher b conv pub _ ih => exact ih
  | registerRecorder b conv r _ ih => exact ih
  | registerSubscriber b sub _ ih =>
    unfold Bridge.registerSubscriber
    split
    · exact ih
    · exact ih
  | setMasterURINet b uri robot_type clock _ _ =>
    unfold Bridge.setMasterURINet
    exact Bridge.init_queue_nodup _ clock
  | init b clock _ _ => exact Bridge.init_queue_nodup b clock
  | startPublishing b _ ih => exact ih
  | stopPublishing b _ ih => exact ih
  | startRecord b _ ih => exact ih
  | startRecordTopics b names _ ih => exact ih
  | stopRecord b _ ih => exact ih
  | pass b actions now r hb hr ih =>
    exact (Bridge.rosLoopBody_preserves b actions now
      (Bridge.Reachable.inv hb).queue_valid ih r hr).2.2

end alros
